import Mathlib

/-!
# A shallow embedding of the kj event loop and promise nodes

This file embeds the core of `src/c++/src/kj/async.c++` in Lean 4 and
proves properties of the event queue (arming, popping, destruction) and
of the promise-node state machines (`OnReadyEvent`, `ChainPromiseNode`,
`ExclusiveJoinPromiseNode`, `YieldPromiseNode`, `TaskSetImpl`).

The event queue is an intrusive doubly linked list in which every
`prev` pointer names the *slot* (a pointer-to-pointer) that references
the event, not the previous event.  We model slots as an inductive
type: either the loop's `head` field or the `next` field of some event.
Events are identified by natural numbers; the loop state carries the
`next`/`prev` fields of all events plus the loop's `head`, `tail`,
`depthFirstInsertPoint` pointers and the per-event `firing` flags.
-/

namespace KjAsync

/-- Events are identified by a natural number (standing for the C++ object
identity `EventLoop::Event*`). -/
abbrev EventId := Nat

/-- A slot is a pointer-to-pointer into the queue: either the loop's `head`
field, or the `next` field of an event.  `EventLoop::Event::prev`,
`EventLoop::tail` and `EventLoop::depthFirstInsertPoint` all hold slots. -/
inductive Slot where
  | head : Slot
  | next : EventId → Slot
deriving DecidableEq, Repr

/-- The mutable state of an `EventLoop` queue together with the intrusive
`next`/`prev`/`firing` fields of every event.  `prevOf e = none` encodes
`e->prev == nullptr`, i.e. the event is not enqueued. -/
structure LoopState where
  nextOf : EventId → Option EventId
  prevOf : EventId → Option Slot
  headE : Option EventId
  tail : Slot
  dfip : Slot
  firing : EventId → Bool

/-- Read through a slot pointer (`*slot`). -/
def LoopState.readSlot (st : LoopState) : Slot → Option EventId
  | Slot.head => st.headE
  | Slot.next e => st.nextOf e

/-- Update the `next` field of event `e`. -/
def LoopState.setNext (st : LoopState) (e : EventId) (v : Option EventId) : LoopState :=
  { st with nextOf := fun x => if x = e then v else st.nextOf x }

/-- Update the `prev` field of event `e`. -/
def LoopState.setPrev (st : LoopState) (e : EventId) (v : Option Slot) : LoopState :=
  { st with prevOf := fun x => if x = e then v else st.prevOf x }

/-- Write through a slot pointer (`*slot = v`). -/
def LoopState.writeSlot (st : LoopState) (s : Slot) (v : Option EventId) : LoopState :=
  match s with
  | Slot.head => { st with headE := v }
  | Slot.next e => st.setNext e v

/-- Update the `firing` flag of event `e`. -/
def LoopState.setFiring (st : LoopState) (e : EventId) (b : Bool) : LoopState :=
  { st with firing := fun x => if x = e then b else st.firing x }

/-- A freshly constructed loop: empty queue, `tail` and
`depthFirstInsertPoint` both referencing the `head` slot. -/
def emptyLoop : LoopState :=
  { nextOf := fun _ => none
    prevOf := fun _ => none
    headE := none
    tail := Slot.head
    dfip := Slot.head
    firing := fun _ => false }

/-- Model of `EventLoop::Event::armDepthFirst` (async.c++ lines 300-319): if the event
is already enqueued (`prev != nullptr`) do nothing; otherwise insert it at
`depthFirstInsertPoint`, repair the displaced occupant's `prev`, advance
`depthFirstInsertPoint` past the new event and move `tail` along if it
referenced the insertion slot.  The source's cross-thread `KJ_REQUIRE` is a
precondition of the single-threaded model and has no effect on the state. -/
def armDepthFirst (e : EventId) (st : LoopState) : LoopState :=
  match st.prevOf e with
  | some _ => st
  | none =>
    let p := st.dfip
    let nxt := st.readSlot p
    let st1 := ((st.setNext e nxt).setPrev e (some p)).writeSlot p (some e)
    let st2 :=
      match nxt with
      | some n => st1.setPrev n (some (Slot.next e))
      | none => st1
    let st3 := { st2 with dfip := Slot.next e }
    if st.tail = p then { st3 with tail := Slot.next e } else st3

/-- Model of `EventLoop::Event::armBreadthFirst` (async.c++ lines 321-336): if the
event is already enqueued do nothing; otherwise append it at `tail` and move
`tail` to the new event's `next` slot. -/
def armBreadthFirst (e : EventId) (st : LoopState) : LoopState :=
  match st.prevOf e with
  | some _ => st
  | none =>
    let p := st.tail
    let nxt := st.readSlot p
    let st1 := ((st.setNext e nxt).setPrev e (some p)).writeSlot p (some e)
    let st2 :=
      match nxt with
      | some n => st1.setPrev n (some (Slot.next e))
      | none => st1
    { st2 with tail := Slot.next e }

/-- The dequeue performed at the top of the busy branch of
`EventLoop::waitImpl` (async.c++ lines 235-244): pop `head`, reset
`depthFirstInsertPoint` to the `head` slot, retract `tail` if it referenced
the popped event's `next` slot, and null the popped event's links. -/
def popStep (st : LoopState) : Option (EventId × LoopState) :=
  match st.headE with
  | none => none
  | some event =>
    let st1 := { st with headE := st.nextOf event, dfip := Slot.head }
    let st2 := if st1.tail = Slot.next event then { st1 with tail := Slot.head } else st1
    some (event, (st2.setNext event none).setPrev event none)

/-- Model of `EventLoop::Event::~Event` (async.c++ lines 277-298): when the event is
enqueued, repair `head`, `tail` and `depthFirstInsertPoint` if they
referenced it, then unlink by the single slot write `*prev = next` and
repair the successor's `prev`.  The destructor's `KJ_REQUIRE(!firing)` and
thread check are assertions that do not modify the queue. -/
def destroyEvent (e : EventId) (st : LoopState) : LoopState :=
  match st.prevOf e with
  | none => st
  | some p =>
    let st1 := if st.headE = some e then { st with headE := st.nextOf e } else st
    let st2 := if st1.tail = Slot.next e then { st1 with tail := p } else st1
    let st3 := if st2.dfip = Slot.next e then { st2 with dfip := p } else st2
    let st4 := st3.writeSlot p (st.nextOf e)
    match st.nextOf e with
    | some n => st4.setPrev n (some p)
    | none => st4

/-- An arm operation requested from within an event's `fire()` callback. -/
inductive Action where
  | armDF (e : EventId)
  | armBF (e : EventId)
deriving DecidableEq, Repr

/-- Run a sequence of arm requests against the loop state. -/
def runActions : List Action → LoopState → LoopState
  | [], st => st
  | Action.armDF e :: rest, st => runActions rest (armDepthFirst e st)
  | Action.armBF e :: rest, st => runActions rest (armBreadthFirst e st)

/-- One iteration of the busy branch of `EventLoop::waitImpl` (async.c++
lines 234-255): pop the head event, set its `firing` flag, run its `fire()`
(modelled by the arm requests `fire event`), clear `firing`, and finally
reset `depthFirstInsertPoint` to the `head` slot (line 254). -/
def loopStep (fire : EventId → List Action) (st : LoopState) : Option (EventId × LoopState) :=
  match popStep st with
  | none => none
  | some (event, st1) =>
    let st2 := st1.setFiring event true
    let st3 := runActions (fire event) st2
    let st4 := st3.setFiring event false
    some (event, { st4 with dfip := Slot.head })

/-- Drive the loop for at most `n` iterations, returning the events fired in
order.  Stops early when the queue is empty. -/
def runLoop (fire : EventId → List Action) : Nat → LoopState → List EventId
  | 0, _ => []
  | n + 1, st =>
    match loopStep fire st with
    | none => []
    | some (event, st') => event :: runLoop fire n st'

/-!
## Promise-node models

The node classes of async.c++ are modelled as small state machines.
`kj::Exception` is kept abstract; only its identity matters.
-/

/-- An abstract `kj::Exception`, identified by a number. -/
structure Exception where
  msg : Nat
deriving DecidableEq, Repr

/-- Modelled from the spec: `ExceptionOrValue` is declared in `async.h`,
which is not part of the sources here; spec section 3 describes it as "a
result cell holding at most one value and any number of accumulated
exceptions", where `add_exception` appends.  The C++ `KJ_IF_MAYBE` read of
the `exception` member is modelled as inspecting the first accumulated
exception. -/
structure ExceptionOr (α : Type) where
  value : Option α
  exceptions : List Exception
deriving DecidableEq, Repr

/-- Modelled from the spec: `add_exception` appends to the accumulated
exceptions (spec section 3, "ExceptionOrValue"). -/
def ExceptionOr.addException (r : ExceptionOr α) (e : Exception) : ExceptionOr α :=
  { r with exceptions := r.exceptions ++ [e] }

/-- Leaf promise-for-void nodes, sufficient for the chain / join / task
claims:
* `immediateVoid` — an immediate value node holding `void`
  (`ImmediatePromiseNode<Void>`; `onReady` returns true, async.c++ line 496,
  and per spec section 4.3 `get` fills the stored value);
* `immediateBroken` — `ImmediateBrokenPromiseNode` (async.c++ lines
  498-503);
* `attachThrowing inner d` — an `AttachmentPromiseNode` wrapping `inner`
  (delegating `onReady`/`get`, async.c++ lines 507-520) whose owned
  attachment throws `d` when the node is destroyed. -/
inductive VNode where
  | immediateVoid : VNode
  | immediateBroken : Exception → VNode
  | attachThrowing : VNode → Exception → VNode
deriving DecidableEq, Repr

/-- Readiness callback `onReady` for the leaf nodes above.  `ImmediatePromiseNodeBase::onReady`
returns true unconditionally (async.c++ line 496);
`AttachmentPromiseNodeBase::onReady` delegates (lines 510-512). -/
def VNode.onReady : VNode → EventId → Bool
  | VNode.immediateVoid, _ => true
  | VNode.immediateBroken _, _ => true
  | VNode.attachThrowing inner _, ev => inner.onReady ev

/-- Result extraction `get` for the leaf nodes: the immediate-value node fills the value, the
broken node moves its exception into the output (async.c++ lines 501-503),
and the attachment node delegates (lines 514-516). -/
def VNode.get : VNode → ExceptionOr Unit
  | VNode.immediateVoid => { value := some (), exceptions := [] }
  | VNode.immediateBroken e => { value := none, exceptions := [e] }
  | VNode.attachThrowing inner _ => inner.get

/-- The exception (if any) thrown while destroying the node: only the
attachment node's owned objects can throw during destruction. -/
def VNode.dtorException : VNode → Option Exception
  | VNode.immediateVoid => none
  | VNode.immediateBroken _ => none
  | VNode.attachThrowing _ d => some d

/-- The three states of `PromiseNode::OnReadyEvent::event`: null pointer,
the sentinel `_kJ_ALREADY_READY` (async.c++ line 47), or a real event
pointer. -/
inductive OnReadyState where
  | unset : OnReadyState
  | alreadyReady : OnReadyState
  | eventPtr : EventId → OnReadyState
deriving DecidableEq, Repr

/-- Model of `PromiseNode::OnReadyEvent` (async.c++ lines 477-492). -/
structure OnReadyEvent where
  event : OnReadyState
deriving DecidableEq, Repr

/-- Model of `OnReadyEvent::init` (async.c++ lines 477-484): if the stored word is
the already-ready sentinel, report ready; otherwise store the new event
pointer and report not ready.  Note the source does not check whether an
event pointer was already stored: a second call overwrites it. -/
def OnReadyEvent.init (o : OnReadyEvent) (newEvent : EventId) : OnReadyEvent × Bool :=
  match o.event with
  | OnReadyState.alreadyReady => (o, true)
  | _ => ({ event := OnReadyState.eventPtr newEvent }, false)

/-- Model of `OnReadyEvent::arm` (async.c++ lines 486-492): from the null state store
the sentinel; from an event pointer arm that event depth-first.  Calling
`arm` when the sentinel is already stored would dereference the sentinel
pointer, which is undefined behaviour, modelled as `none`. -/
def OnReadyEvent.arm (o : OnReadyEvent) (st : LoopState) : Option (OnReadyEvent × LoopState) :=
  match o.event with
  | OnReadyState.unset => some ({ event := OnReadyState.alreadyReady }, st)
  | OnReadyState.eventPtr e => some (o, armDepthFirst e st)
  | OnReadyState.alreadyReady => none

/-- Model of `YieldPromiseNode::onReady` (async.c++ lines 61-64): arm the supplied
event breadth-first and report not ready. -/
def YieldPromiseNode.onReady (ev : EventId) (st : LoopState) : LoopState × Bool :=
  (armBreadthFirst ev st, false)

/-- Model of `YieldPromiseNode::get` (async.c++ lines 65-67): fill the output with
`void`. -/
def YieldPromiseNode.get : ExceptionOr Unit :=
  { value := some (), exceptions := [] }

/-!
### ChainPromiseNode

`ChainPromiseNode` flattens a promise-for-promise.  In STEP1 its `inner`
node yields an intermediate `Promise<void>`; we represent that step-1
dependency by the `ExceptionOr` cell its `get` fills (the node is consumed
by exactly one `get` during `fire` and then released).  In STEP2 `inner` is
the adopted promise's own node.  The C++ `state` field is determined by
which variant `inner` holds.
-/

/-- The `inner` field of a `ChainPromiseNode`; the constructor in use also
encodes the `state` field (STEP1 / STEP2). -/
inductive ChainInner where
  | step1 : ExceptionOr VNode → ChainInner
  | step2 : VNode → ChainInner
deriving DecidableEq, Repr

/-- State of a `ChainPromiseNode`: the inner node and the recorded
`onReadyEvent` (null until the downstream caller registers). -/
structure ChainPromiseNode where
  inner : ChainInner
  onReadyEvent : Option EventId
deriving DecidableEq, Repr

/-- Model of `ChainPromiseNode::onReady` (async.c++ lines 649-659): in STEP1 record
the event, failing the `KJ_REQUIRE` (modelled `none`) if one was already
recorded; in STEP2 delegate to the adopted inner node. -/
def ChainPromiseNode.onReady (c : ChainPromiseNode) (ev : EventId) :
    Option (ChainPromiseNode × Bool) :=
  match c.inner with
  | ChainInner.step1 _ =>
    match c.onReadyEvent with
    | some _ => none
    | none => some ({ c with onReadyEvent := some ev }, false)
  | ChainInner.step2 n => some (c, n.onReady ev)

/-- Model of `ChainPromiseNode::get` (async.c++ lines 661-664): requires STEP2
(else the `KJ_REQUIRE` fails, modelled `none`) and delegates to the adopted
inner node. -/
def ChainPromiseNode.get (c : ChainPromiseNode) : Option (ExceptionOr Unit) :=
  match c.inner with
  | ChainInner.step1 _ => none
  | ChainInner.step2 n => some n.get

/-- Model of `ChainPromiseNode::fire` (async.c++ lines 670-708): requires STEP1;
read the intermediate result from the step-1 dependency and release it.  If
the intermediate carries an exception, discard any value and install an
`ImmediateBrokenPromiseNode` as the new inner; otherwise adopt the
intermediate promise's own node.  If the intermediate carried neither value
nor exception the `KJ_FAIL_ASSERT` fires (modelled `none`).  Finally, if a
downstream event was recorded, register it on the new inner and arm it
depth-first when the new inner reports already-ready. -/
def ChainPromiseNode.fire (c : ChainPromiseNode) (st : LoopState) :
    Option (ChainPromiseNode × LoopState) :=
  match c.inner with
  | ChainInner.step2 _ => none
  | ChainInner.step1 intermediate =>
    let newInner : Option VNode :=
      match intermediate.exceptions with
      | e :: _ => some (VNode.immediateBroken e)
      | [] =>
        match intermediate.value with
        | some v => some v
        | none => none
    match newInner with
    | none => none
    | some n =>
      let c' : ChainPromiseNode := { c with inner := ChainInner.step2 n }
      match c.onReadyEvent with
      | none => some (c', st)
      | some ev => if n.onReady ev then some (c', armDepthFirst ev st) else some (c', st)

/-!
### ExclusiveJoinPromiseNode
-/

/-- Model of `ExclusiveJoinPromiseNode::Branch`: holds the (cancellable) dependency.
`dependency = none` after the other branch cancelled it. -/
structure EJBranch where
  dependency : Option VNode
deriving DecidableEq, Repr

/-- Model of `ExclusiveJoinPromiseNode` (async.c++ lines 712-764). -/
structure ExclusiveJoinPromiseNode where
  left : EJBranch
  right : EJBranch
  onReadyEvent : OnReadyEvent
deriving DecidableEq, Repr

/-- Which of the two branches fired. -/
inductive EJSide where
  | left : EJSide
  | right : EJSide
deriving DecidableEq, Repr

/-- Model of `ExclusiveJoinPromiseNode::Branch::get` (async.c++ lines 741-748):
report whether this branch still holds a dependency and, if so, produce its
result. -/
def EJBranch.get (b : EJBranch) : Option (ExceptionOr Unit) :=
  match b.dependency with
  | some d => some d.get
  | none => none

/-- Model of `ExclusiveJoinPromiseNode::get` (async.c++ lines 721-723): ask the left
branch, then the right branch; the `KJ_REQUIRE` fails (modelled `none`) if
neither has a result. -/
def ExclusiveJoinPromiseNode.get (j : ExclusiveJoinPromiseNode) : Option (ExceptionOr Unit) :=
  match j.left.get with
  | some r => some r
  | none => j.right.get

/-- Model of `ExclusiveJoinPromiseNode::Branch::fire` (async.c++ lines 750-760):
release the other branch's dependency, swallowing any exception thrown by
that release (`runCatchingExceptions` with discarded result), then arm the
shared `onReadyEvent`. -/
def ExclusiveJoinPromiseNode.branchFire (j : ExclusiveJoinPromiseNode) (side : EJSide)
    (st : LoopState) : Option (ExclusiveJoinPromiseNode × LoopState) :=
  let j1 :=
    match side with
    | EJSide.left => { j with right := { dependency := none } }
    | EJSide.right => { j with left := { dependency := none } }
  match j1.onReadyEvent.arm st with
  | some (o', st') => some ({ j1 with onReadyEvent := o' }, st')
  | none => none

/-!
### TaskSetImpl
-/

/-- Model of `_::TaskSetImpl` (async.c++ lines 74-152): the map from `Task*` to the
owned task, modelled as an association list from the task's event id to its
owned promise node, plus the exceptions the configured `ErrorHandler` has
received so far (`taskFailed` appends). -/
structure TaskSetImpl where
  tasks : List (EventId × VNode)
  errorLog : List Exception
deriving DecidableEq, Repr

/-- Model of `TaskSetImpl::Task::fire` (async.c++ lines 99-122): get the void
result from the owned node; destroy the node, adding any exception it
throws; route the resulting exception (if any) to the error handler; then
find ourselves in the task map (`KJ_ASSERT` it is there, modelled `none`
otherwise), move our own ownership out into a local, erase the map entry
and return the ownership out of `fire` (second component), so that the
task object is destroyed only after the loop has dropped the firing
event. -/
def TaskSetImpl.taskFire (ts : TaskSetImpl) (id : EventId) (node : VNode) :
    Option (TaskSetImpl × EventId) :=
  let result := node.get
  let result :=
    match node.dtorException with
    | some e => result.addException e
    | none => result
  let ts1 :=
    match result.exceptions with
    | e :: _ => { ts with errorLog := ts.errorLog ++ [e] }
    | [] => ts
  if ts.tasks.any (fun p => p.1 = id) then
    some ({ ts1 with tasks := ts1.tasks.filter (fun p => p.1 ≠ id) }, id)
  else none

/-- Model of `TaskSetImpl::~TaskSetImpl` (async.c++ lines 79-87): move every owned
task out of the map into a temporary vector `deleteMe` before any element
is destroyed, so that elements whose destructors throw are freed outside
the map.  Returns the contents of `deleteMe`. -/
def TaskSetImpl.destructorDeleteMe (ts : TaskSetImpl) : List (EventId × VNode) :=
  if ts.tasks.isEmpty then [] else ts.tasks

/-!
## Basic projection lemmas for the state operations
-/

@[simp] theorem readSlot_head (st : LoopState) : st.readSlot Slot.head = st.headE := rfl

@[simp] theorem readSlot_next (st : LoopState) (e : EventId) :
    st.readSlot (Slot.next e) = st.nextOf e := rfl

@[simp] theorem readSlot_setPrev (st : LoopState) (e : EventId) (v : Option Slot) (s : Slot) :
    (st.setPrev e v).readSlot s = st.readSlot s := by
  cases s <;> rfl

@[simp] theorem readSlot_setFiring (st : LoopState) (e : EventId) (b : Bool) (s : Slot) :
    (st.setFiring e b).readSlot s = st.readSlot s := by
  cases s <;> rfl

@[simp] theorem readSlot_withDfip (st : LoopState) (d : Slot) (s : Slot) :
    ({ st with dfip := d } : LoopState).readSlot s = st.readSlot s := by
  cases s <;> rfl

@[simp] theorem readSlot_withTail (st : LoopState) (t : Slot) (s : Slot) :
    ({ st with tail := t } : LoopState).readSlot s = st.readSlot s := by
  cases s <;> rfl

@[simp] theorem readSlot_setNext (st : LoopState) (e : EventId) (v : Option EventId) (s : Slot) :
    (st.setNext e v).readSlot s = if s = Slot.next e then v else st.readSlot s := by
  cases s with
  | head => simp [LoopState.setNext, LoopState.readSlot]
  | next x => by_cases hx : x = e <;> simp [LoopState.setNext, LoopState.readSlot, hx]

@[simp] theorem readSlot_writeSlot (st : LoopState) (s : Slot) (v : Option EventId) (s' : Slot) :
    (st.writeSlot s v).readSlot s' = if s' = s then v else st.readSlot s' := by
  cases s with
  | head => cases s' <;> simp [LoopState.writeSlot]
  | next x => simp [LoopState.writeSlot]

@[simp] theorem prevOf_setNext (st : LoopState) (e : EventId) (v : Option EventId) :
    (st.setNext e v).prevOf = st.prevOf := rfl

@[simp] theorem prevOf_writeSlot (st : LoopState) (s : Slot) (v : Option EventId) :
    (st.writeSlot s v).prevOf = st.prevOf := by
  cases s <;> rfl

@[simp] theorem prevOf_setPrev (st : LoopState) (e : EventId) (v : Option Slot) (x : EventId) :
    (st.setPrev e v).prevOf x = if x = e then v else st.prevOf x := rfl

@[simp] theorem prevOf_setFiring (st : LoopState) (e : EventId) (b : Bool) :
    (st.setFiring e b).prevOf = st.prevOf := rfl

@[simp] theorem tail_setNext (st : LoopState) (e : EventId) (v : Option EventId) :
    (st.setNext e v).tail = st.tail := rfl

@[simp] theorem tail_setPrev (st : LoopState) (e : EventId) (v : Option Slot) :
    (st.setPrev e v).tail = st.tail := rfl

@[simp] theorem tail_writeSlot (st : LoopState) (s : Slot) (v : Option EventId) :
    (st.writeSlot s v).tail = st.tail := by
  cases s <;> rfl

@[simp] theorem tail_setFiring (st : LoopState) (e : EventId) (b : Bool) :
    (st.setFiring e b).tail = st.tail := rfl

@[simp] theorem dfip_setNext (st : LoopState) (e : EventId) (v : Option EventId) :
    (st.setNext e v).dfip = st.dfip := rfl

@[simp] theorem dfip_setPrev (st : LoopState) (e : EventId) (v : Option Slot) :
    (st.setPrev e v).dfip = st.dfip := rfl

@[simp] theorem dfip_writeSlot (st : LoopState) (s : Slot) (v : Option EventId) :
    (st.writeSlot s v).dfip = st.dfip := by
  cases s <;> rfl

@[simp] theorem dfip_setFiring (st : LoopState) (e : EventId) (b : Bool) :
    (st.setFiring e b).dfip = st.dfip := rfl

@[simp] theorem firing_setNext (st : LoopState) (e : EventId) (v : Option EventId) :
    (st.setNext e v).firing = st.firing := rfl

@[simp] theorem firing_setPrev (st : LoopState) (e : EventId) (v : Option Slot) :
    (st.setPrev e v).firing = st.firing := rfl

@[simp] theorem firing_writeSlot (st : LoopState) (s : Slot) (v : Option EventId) :
    (st.writeSlot s v).firing = st.firing := by
  cases s <;> rfl

/-!
## Pointwise characterization of the queue operations
-/

/-- Arming an enqueued event (`prev != nullptr`) is a no-op, for both
arming modes (async.c++ lines 305, 326). -/
theorem arm_noop (st : LoopState) (e : EventId) (s : Slot) (h : st.prevOf e = some s) :
    armDepthFirst e st = st ∧ armBreadthFirst e st = st := by
  constructor
  · unfold armDepthFirst
    rw [h]
  · unfold armBreadthFirst
    rw [h]

@[simp] theorem nextOf_setNext (st : LoopState) (e : EventId) (v : Option EventId) (x : EventId) :
    (st.setNext e v).nextOf x = if x = e then v else st.nextOf x := rfl

@[simp] theorem nextOf_setPrev (st : LoopState) (e : EventId) (v : Option Slot) :
    (st.setPrev e v).nextOf = st.nextOf := rfl

@[simp] theorem nextOf_setFiring (st : LoopState) (e : EventId) (b : Bool) :
    (st.setFiring e b).nextOf = st.nextOf := rfl

@[simp] theorem nextOf_writeSlot (st : LoopState) (s : Slot) (v : Option EventId) (x : EventId) :
    (st.writeSlot s v).nextOf x = if Slot.next x = s then v else st.nextOf x := by
  cases s with
  | head => simp [LoopState.writeSlot]
  | next y => by_cases hx : x = y <;> simp [LoopState.writeSlot, hx]

@[simp] theorem headE_setNext (st : LoopState) (e : EventId) (v : Option EventId) :
    (st.setNext e v).headE = st.headE := rfl

@[simp] theorem headE_setPrev (st : LoopState) (e : EventId) (v : Option Slot) :
    (st.setPrev e v).headE = st.headE := rfl

@[simp] theorem headE_setFiring (st : LoopState) (e : EventId) (b : Bool) :
    (st.setFiring e b).headE = st.headE := rfl

@[simp] theorem headE_writeSlot (st : LoopState) (s : Slot) (v : Option EventId) :
    (st.writeSlot s v).headE = if Slot.head = s then v else st.headE := by
  cases s <;> simp [LoopState.writeSlot]

theorem headE_armDepthFirst (st : LoopState) (e : EventId) (h : st.prevOf e = none) :
    (armDepthFirst e st).headE = if Slot.head = st.dfip then some e else st.headE := by
  unfold armDepthFirst
  rw [h]
  cases hn : st.readSlot st.dfip <;> by_cases ht : st.tail = st.dfip <;> simp [hn, ht]

theorem nextOf_armDepthFirst (st : LoopState) (e : EventId) (h : st.prevOf e = none)
    (x : EventId) :
    (armDepthFirst e st).nextOf x =
      if Slot.next x = st.dfip then some e
      else if x = e then st.readSlot st.dfip
      else st.nextOf x := by
  unfold armDepthFirst
  rw [h]
  cases hn : st.readSlot st.dfip <;> by_cases ht : st.tail = st.dfip <;> simp [hn, ht]

theorem prevOf_armDepthFirst (st : LoopState) (e : EventId) (h : st.prevOf e = none)
    (x : EventId) :
    (armDepthFirst e st).prevOf x =
      match st.readSlot st.dfip with
      | some n => if x = n then some (Slot.next e) else
          if x = e then some st.dfip else st.prevOf x
      | none => if x = e then some st.dfip else st.prevOf x := by
  unfold armDepthFirst
  rw [h]
  cases hn : st.readSlot st.dfip <;> by_cases ht : st.tail = st.dfip <;> simp [hn, ht]

theorem dfip_armDepthFirst (st : LoopState) (e : EventId) (h : st.prevOf e = none) :
    (armDepthFirst e st).dfip = Slot.next e := by
  unfold armDepthFirst
  rw [h]
  cases hn : st.readSlot st.dfip <;> by_cases ht : st.tail = st.dfip <;> simp [hn, ht]

theorem tail_armDepthFirst (st : LoopState) (e : EventId) (h : st.prevOf e = none) :
    (armDepthFirst e st).tail = if st.tail = st.dfip then Slot.next e else st.tail := by
  unfold armDepthFirst
  rw [h]
  cases hn : st.readSlot st.dfip <;> by_cases ht : st.tail = st.dfip <;> simp [hn, ht]

theorem firing_armDepthFirst (st : LoopState) (e : EventId) :
    (armDepthFirst e st).firing = st.firing := by
  unfold armDepthFirst
  cases h : st.prevOf e with
  | some s => rfl
  | none =>
    cases hn : st.readSlot st.dfip <;> by_cases ht : st.tail = st.dfip <;> simp [hn, ht]

/-- Readthrough characterization of a fresh depth-first arm: the insertion
slot now names the new event, the new event's `next` slot names the old
occupant, and every other slot is untouched. -/
theorem readSlot_armDepthFirst (st : LoopState) (e : EventId)
    (h : st.prevOf e = none) (s' : Slot) :
    (armDepthFirst e st).readSlot s' =
      if s' = st.dfip then some e
      else if s' = Slot.next e then st.readSlot st.dfip
      else st.readSlot s' := by
  cases s' with
  | head =>
    rw [readSlot_head, headE_armDepthFirst st e h]
    by_cases hh : Slot.head = st.dfip
    · rw [if_pos hh, if_pos hh]
    · rw [if_neg hh, if_neg hh]
      simp
  | next x =>
    rw [readSlot_next, nextOf_armDepthFirst st e h x]
    by_cases h1 : Slot.next x = st.dfip
    · rw [if_pos h1, if_pos h1]
    · rw [if_neg h1, if_neg h1]
      simp

theorem headE_armBreadthFirst (st : LoopState) (e : EventId) (h : st.prevOf e = none) :
    (armBreadthFirst e st).headE = if Slot.head = st.tail then some e else st.headE := by
  unfold armBreadthFirst
  rw [h]
  cases hn : st.readSlot st.tail <;> simp [hn]

theorem nextOf_armBreadthFirst (st : LoopState) (e : EventId) (h : st.prevOf e = none)
    (x : EventId) :
    (armBreadthFirst e st).nextOf x =
      if Slot.next x = st.tail then some e
      else if x = e then st.readSlot st.tail
      else st.nextOf x := by
  unfold armBreadthFirst
  rw [h]
  cases hn : st.readSlot st.tail <;> simp [hn]

theorem prevOf_armBreadthFirst (st : LoopState) (e : EventId) (h : st.prevOf e = none)
    (x : EventId) :
    (armBreadthFirst e st).prevOf x =
      match st.readSlot st.tail with
      | some n => if x = n then some (Slot.next e) else
          if x = e then some st.tail else st.prevOf x
      | none => if x = e then some st.tail else st.prevOf x := by
  unfold armBreadthFirst
  rw [h]
  cases hn : st.readSlot st.tail <;> simp [hn]

theorem tail_armBreadthFirst (st : LoopState) (e : EventId) (h : st.prevOf e = none) :
    (armBreadthFirst e st).tail = Slot.next e := by
  unfold armBreadthFirst
  rw [h]

theorem dfip_armBreadthFirst (st : LoopState) (e : EventId) (h : st.prevOf e = none) :
    (armBreadthFirst e st).dfip = st.dfip := by
  unfold armBreadthFirst
  rw [h]
  cases hn : st.readSlot st.tail <;> simp [hn]

theorem firing_armBreadthFirst (st : LoopState) (e : EventId) :
    (armBreadthFirst e st).firing = st.firing := by
  unfold armBreadthFirst
  cases h : st.prevOf e with
  | some s => rfl
  | none => cases hn : st.readSlot st.tail <;> simp [hn]

/-- Readthrough characterization of a fresh breadth-first arm. -/
theorem readSlot_armBreadthFirst (st : LoopState) (e : EventId)
    (h : st.prevOf e = none) (s' : Slot) :
    (armBreadthFirst e st).readSlot s' =
      if s' = st.tail then some e
      else if s' = Slot.next e then st.readSlot st.tail
      else st.readSlot s' := by
  cases s' with
  | head =>
    rw [readSlot_head, headE_armBreadthFirst st e h]
    by_cases hh : Slot.head = st.tail
    · rw [if_pos hh, if_pos hh]
    · rw [if_neg hh, if_neg hh]
      simp
  | next x =>
    rw [readSlot_next, nextOf_armBreadthFirst st e h x]
    by_cases h1 : Slot.next x = st.tail
    · rw [if_pos h1, if_pos h1]
    · rw [if_neg h1, if_neg h1]
      simp

/-- Explicit form of the dequeue step when the queue is nonempty. -/
theorem popStep_eq (st : LoopState) (ev : EventId) (h : st.headE = some ev) :
    popStep st = some (ev,
      { nextOf := fun x => if x = ev then none else st.nextOf x
        prevOf := fun x => if x = ev then none else st.prevOf x
        headE := st.nextOf ev
        tail := if st.tail = Slot.next ev then Slot.head else st.tail
        dfip := Slot.head
        firing := st.firing }) := by
  unfold popStep
  rw [h]
  by_cases ht : st.tail = Slot.next ev <;>
    simp [ht, LoopState.setNext, LoopState.setPrev]

theorem headE_destroyEvent (st : LoopState) (e : EventId) (p : Slot)
    (h : st.prevOf e = some p) :
    (destroyEvent e st).headE =
      if Slot.head = p then st.nextOf e
      else if st.headE = some e then st.nextOf e
      else st.headE := by
  unfold destroyEvent
  rw [h]
  by_cases hh : st.headE = some e <;>
    cases hn : st.nextOf e <;>
      by_cases ht : st.tail = Slot.next e <;>
        by_cases hd : st.dfip = Slot.next e <;>
          simp_all

theorem nextOf_destroyEvent (st : LoopState) (e : EventId) (p : Slot)
    (h : st.prevOf e = some p) (x : EventId) :
    (destroyEvent e st).nextOf x =
      if Slot.next x = p then st.nextOf e else st.nextOf x := by
  unfold destroyEvent
  rw [h]
  by_cases hh : st.headE = some e <;>
    cases hn : st.nextOf e <;>
      by_cases ht : st.tail = Slot.next e <;>
        by_cases hd : st.dfip = Slot.next e <;>
          simp_all

theorem prevOf_destroyEvent (st : LoopState) (e : EventId) (p : Slot)
    (h : st.prevOf e = some p) (x : EventId) :
    (destroyEvent e st).prevOf x =
      match st.nextOf e with
      | some n => if x = n then some p else st.prevOf x
      | none => st.prevOf x := by
  unfold destroyEvent
  rw [h]
  by_cases hh : st.headE = some e <;>
    cases hn : st.nextOf e <;>
      by_cases ht : st.tail = Slot.next e <;>
        by_cases hd : st.dfip = Slot.next e <;>
          simp_all

theorem tail_destroyEvent (st : LoopState) (e : EventId) (p : Slot)
    (h : st.prevOf e = some p) :
    (destroyEvent e st).tail = if st.tail = Slot.next e then p else st.tail := by
  unfold destroyEvent
  rw [h]
  by_cases hh : st.headE = some e <;>
    cases hn : st.nextOf e <;>
      by_cases ht : st.tail = Slot.next e <;>
        by_cases hd : st.dfip = Slot.next e <;>
          simp_all

theorem dfip_destroyEvent (st : LoopState) (e : EventId) (p : Slot)
    (h : st.prevOf e = some p) :
    (destroyEvent e st).dfip = if st.dfip = Slot.next e then p else st.dfip := by
  unfold destroyEvent
  rw [h]
  by_cases hh : st.headE = some e <;>
    cases hn : st.nextOf e <;>
      by_cases ht : st.tail = Slot.next e <;>
        by_cases hd : st.dfip = Slot.next e <;>
          simp_all

/-- Readthrough characterization of destroying an enqueued event whose
`prev` slot is accurate: only the referencing slot changes, now naming the
destroyed event's successor. -/
theorem readSlot_destroyEvent (st : LoopState) (e : EventId) (p : Slot)
    (h : st.prevOf e = some p) (hhead : st.headE = some e ↔ p = Slot.head) (s' : Slot) :
    (destroyEvent e st).readSlot s' =
      if s' = p then st.nextOf e else st.readSlot s' := by
  cases s' with
  | head =>
    rw [readSlot_head, headE_destroyEvent st e p h]
    by_cases hh : Slot.head = p
    · rw [if_pos hh, if_pos hh]
    · have h2 : ¬st.headE = some e := fun hc => hh (hhead.mp hc).symm
      rw [if_neg hh, if_neg h2, if_neg hh]
      rfl
  | next x =>
    rw [readSlot_next, nextOf_destroyEvent st e p h x]
    by_cases h1 : Slot.next x = p
    · rw [if_pos h1, if_pos h1]
    · rw [if_neg h1, if_neg h1]
      rfl

/-!
## Spelling out the queue as a list

`chainTo st s l` says that starting at slot `s` the `next` chain spells
exactly the events of `l` in order.  `fullTo` additionally demands that
every listed event's `prev` field accurately names the slot referencing
it.  `slotAfterFrom s l` is the slot one past the last element of `l`
(where a subsequent event would be linked in), and `readsOf s l` is the
list of slots `chainTo` inspects.
-/

def chainTo (st : LoopState) : Slot → List EventId → Prop
  | _, [] => True
  | s, e :: l => st.readSlot s = some e ∧ chainTo st (Slot.next e) l

def fullTo (st : LoopState) : Slot → List EventId → Prop
  | _, [] => True
  | s, e :: l => st.readSlot s = some e ∧ st.prevOf e = some s ∧ fullTo st (Slot.next e) l

def slotAfterFrom : Slot → List EventId → Slot
  | s, [] => s
  | _, e :: l => slotAfterFrom (Slot.next e) l

def readsOf : Slot → List EventId → List Slot
  | _, [] => []
  | s, e :: l => s :: readsOf (Slot.next e) l

@[simp] theorem chainTo_nil (st : LoopState) (s : Slot) : chainTo st s [] := trivial

@[simp] theorem chainTo_cons (st : LoopState) (s : Slot) (e : EventId) (l : List EventId) :
    chainTo st s (e :: l) ↔ st.readSlot s = some e ∧ chainTo st (Slot.next e) l := Iff.rfl

@[simp] theorem fullTo_nil (st : LoopState) (s : Slot) : fullTo st s [] := trivial

@[simp] theorem fullTo_cons (st : LoopState) (s : Slot) (e : EventId) (l : List EventId) :
    fullTo st s (e :: l) ↔
      st.readSlot s = some e ∧ st.prevOf e = some s ∧ fullTo st (Slot.next e) l := Iff.rfl

@[simp] theorem slotAfterFrom_nil (s : Slot) : slotAfterFrom s [] = s := rfl

@[simp] theorem slotAfterFrom_cons (s : Slot) (e : EventId) (l : List EventId) :
    slotAfterFrom s (e :: l) = slotAfterFrom (Slot.next e) l := rfl

theorem slotAfterFrom_append (s : Slot) (l1 l2 : List EventId) :
    slotAfterFrom s (l1 ++ l2) = slotAfterFrom (slotAfterFrom s l1) l2 := by
  induction l1 generalizing s with
  | nil => rfl
  | cons a l1 ih => simp [ih]

theorem slotAfterFrom_concat (s : Slot) (l : List EventId) (e : EventId) :
    slotAfterFrom s (l ++ [e]) = Slot.next e := by
  rw [slotAfterFrom_append]
  rfl

/-- The slot one past a nonempty list does not depend on the starting
slot. -/
theorem slotAfterFrom_ne_nil (s s' : Slot) (l : List EventId) (h : l ≠ []) :
    slotAfterFrom s l = slotAfterFrom s' l := by
  cases l with
  | nil => exact absurd rfl h
  | cons a l => rfl

theorem slotAfterFrom_shape (l : List EventId) (s : Slot) :
    slotAfterFrom s l = s ∨ ∃ x ∈ l, slotAfterFrom s l = Slot.next x := by
  induction l generalizing s with
  | nil => exact Or.inl rfl
  | cons a l ih =>
    rcases ih (Slot.next a) with h | ⟨x, hx, h⟩
    · exact Or.inr ⟨a, List.mem_cons_self a l, h⟩
    · exact Or.inr ⟨x, List.mem_cons_of_mem a hx, h⟩

theorem slotAfterFrom_ne_next (s : Slot) (l : List EventId) (e : EventId)
    (hs : s ≠ Slot.next e) (he : e ∉ l) : slotAfterFrom s l ≠ Slot.next e := by
  rcases slotAfterFrom_shape l s with h | ⟨x, hx, h⟩
  · rw [h]
    exact hs
  · rw [h]
    intro hc
    apply he
    rw [Slot.next.inj hc] at hx
    exact hx

theorem mem_readsOf (l : List EventId) (s s' : Slot) (h : s' ∈ readsOf s l) :
    s' = s ∨ ∃ x ∈ l, s' = Slot.next x := by
  induction l generalizing s with
  | nil => simp [readsOf] at h
  | cons a l ih =>
    rw [readsOf, List.mem_cons] at h
    rcases h with h | h
    · exact Or.inl h
    · rcases ih (Slot.next a) h with h' | ⟨x, hx, h'⟩
      · exact Or.inr ⟨a, List.mem_cons_self a l, h'⟩
      · exact Or.inr ⟨x, List.mem_cons_of_mem a hx, h'⟩

/-- The `next` slot of an event outside the list is never inspected by the
chain predicate (provided the start slot is not that very slot). -/
theorem next_not_reads (s : Slot) (l : List EventId) (e : EventId)
    (he : e ∉ l) (hs : s ≠ Slot.next e) : Slot.next e ∉ readsOf s l := by
  intro hc
  rcases mem_readsOf l s (Slot.next e) hc with h | ⟨x, hx, h⟩
  · exact hs h.symm
  · apply he
    rw [Slot.next.inj h]
    exact hx

/-- The slot one past a duplicate-free list is never inspected by the chain
predicate over that list. -/
theorem slotAfter_not_reads (l : List EventId) (s : Slot) (hnd : l.Nodup)
    (hs : ∀ x ∈ l, s ≠ Slot.next x) : slotAfterFrom s l ∉ readsOf s l := by
  induction l generalizing s with
  | nil => simp [readsOf]
  | cons a l ih =>
    rw [slotAfterFrom_cons, readsOf, List.mem_cons]
    rintro (h | h)
    · rcases slotAfterFrom_shape l (Slot.next a) with h' | ⟨x, hx, h'⟩
      · exact hs a (List.mem_cons_self a l) (h.symm.trans h')
      · exact hs x (List.mem_cons_of_mem a hx) (h.symm.trans h')
    · refine ih (Slot.next a) (List.Nodup.of_cons hnd) ?_ h
      intro x hx hc
      apply List.Nodup.not_mem hnd
      rw [Slot.next.inj hc]
      exact hx

theorem chainTo_append (st : LoopState) (s : Slot) (l1 l2 : List EventId) :
    chainTo st s (l1 ++ l2) ↔ chainTo st s l1 ∧ chainTo st (slotAfterFrom s l1) l2 := by
  induction l1 generalizing s with
  | nil => simp
  | cons a l1 ih => simp [ih, and_assoc]

theorem fullTo_append (st : LoopState) (s : Slot) (l1 l2 : List EventId) :
    fullTo st s (l1 ++ l2) ↔ fullTo st s l1 ∧ fullTo st (slotAfterFrom s l1) l2 := by
  induction l1 generalizing s with
  | nil => simp
  | cons a l1 ih => simp [ih, and_assoc]

theorem fullTo_chainTo (st : LoopState) (s : Slot) (l : List EventId) (h : fullTo st s l) :
    chainTo st s l := by
  induction l generalizing s with
  | nil => trivial
  | cons a l ih =>
    rcases h with ⟨h1, _, h3⟩
    exact ⟨h1, ih (Slot.next a) h3⟩

theorem fullTo_prev_isSome (st : LoopState) (s : Slot) (l : List EventId)
    (h : fullTo st s l) (x : EventId) (hx : x ∈ l) : st.prevOf x ≠ none := by
  induction l generalizing s with
  | nil => simp at hx
  | cons a l ih =>
    rcases h with ⟨_, h2, h3⟩
    rcases List.mem_cons.mp hx with rfl | hx'
    · simp [h2]
    · exact ih (Slot.next a) h3 hx'

/-- Chains only depend on the slots they read. -/
theorem chainTo_congr (st st' : LoopState) (s : Slot) (l : List EventId)
    (hr : ∀ s' ∈ readsOf s l, st'.readSlot s' = st.readSlot s') :
    chainTo st s l → chainTo st' s l := by
  induction l generalizing s with
  | nil => intro _; trivial
  | cons a l ih =>
    rintro ⟨h1, h2⟩
    refine ⟨?_, ih (Slot.next a) (fun s' hs' => hr s' (by simp [readsOf, hs'])) h2⟩
    rw [hr s (by simp [readsOf])]
    exact h1

/-- Fully accurate chains only depend on the slots they read and the `prev`
fields of their members. -/
theorem fullTo_congr (st st' : LoopState) (s : Slot) (l : List EventId)
    (hr : ∀ s' ∈ readsOf s l, st'.readSlot s' = st.readSlot s')
    (hp : ∀ x ∈ l, st'.prevOf x = st.prevOf x) :
    fullTo st s l → fullTo st' s l := by
  induction l generalizing s with
  | nil => intro _; trivial
  | cons a l ih =>
    rintro ⟨h1, h2, h3⟩
    refine ⟨?_, ?_, ih (Slot.next a) (fun s' hs' => hr s' (by simp [readsOf, hs']))
      (fun x hx => hp x (List.mem_cons_of_mem a hx)) h3⟩
    · rw [hr s (by simp [readsOf])]
      exact h1
    · rw [hp a (List.mem_cons_self a l)]
      exact h2

/-!
## The queue invariant

`QueueInvAt st l1 l2` says the queue currently spells `l1 ++ l2`, the
depth-first insert point sits between `l1` and `l2`, and `tail` sits at
the very end; `prev` is non-null exactly for enqueued events (its value
may be stale — the source never repairs the popped head's successor).
-/

structure QueueInvAt (st : LoopState) (l1 l2 : List EventId) : Prop where
  chain : chainTo st Slot.head (l1 ++ l2)
  term : st.readSlot (slotAfterFrom Slot.head (l1 ++ l2)) = none
  queued : ∀ x ∈ l1 ++ l2, st.prevOf x ≠ none
  unqueued : ∀ x, x ∉ l1 ++ l2 → st.prevOf x = none
  nodup : (l1 ++ l2).Nodup
  tail_eq : st.tail = slotAfterFrom Slot.head (l1 ++ l2)
  dfip_eq : st.dfip = slotAfterFrom Slot.head l1

/-- The queue spells `l` with the insert point somewhere inside. -/
def QueueInv (st : LoopState) (l : List EventId) : Prop :=
  ∃ l1 l2, l = l1 ++ l2 ∧ QueueInvAt st l1 l2

theorem QueueInvAt.readSlot_dfip {st : LoopState} {l1 l2 : List EventId}
    (h : QueueInvAt st l1 l2) : st.readSlot st.dfip = l2.head? := by
  have hc := h.chain
  rw [chainTo_append] at hc
  cases l2 with
  | nil =>
    rw [h.dfip_eq]
    have ht := h.term
    rw [List.append_nil] at ht
    exact ht
  | cons f l2' =>
    rw [h.dfip_eq]
    simpa using hc.2.1

theorem QueueInvAt.tail_eq_dfip_iff {st : LoopState} {l1 l2 : List EventId}
    (h : QueueInvAt st l1 l2) : st.tail = st.dfip ↔ l2 = [] := by
  constructor
  · intro ht
    have h1 : st.readSlot st.dfip = l2.head? := h.readSlot_dfip
    have h2 : st.readSlot st.tail = none := by rw [h.tail_eq]; exact h.term
    rw [ht, h1] at h2
    exact List.head?_eq_none_iff.mp h2
  · intro h2
    subst h2
    rw [h.tail_eq, h.dfip_eq, List.append_nil]

/-- Depth-first arming a fresh event inserts it exactly at the depth-first
insert point — between the events of `l1` and those of `l2` — and advances
the insert point past it. -/
theorem QueueInvAt.armDF {st : LoopState} {l1 l2 : List EventId}
    (h : QueueInvAt st l1 l2) (e : EventId) (he : e ∉ l1 ++ l2) :
    QueueInvAt (armDepthFirst e st) (l1 ++ [e]) l2 := by
  have hnd12 := h.nodup
  obtain ⟨hnd1, hnd2, hds⟩ := List.nodup_append.mp hnd12
  have he1 : e ∉ l1 := fun hc => he (List.mem_append_left _ hc)
  have he2 : e ∉ l2 := fun hc => he (List.mem_append_right _ hc)
  have hfresh : st.prevOf e = none := h.unqueued e he
  have hrd : st.readSlot st.dfip = l2.head? := h.readSlot_dfip
  have hrs := readSlot_armDepthFirst st e hfresh
  have hpv := prevOf_armDepthFirst st e hfresh
  have hdne : st.dfip ≠ Slot.next e := by
    rw [h.dfip_eq]
    exact slotAfterFrom_ne_next Slot.head l1 e (by simp) he1
  have hA : st.dfip ∉ readsOf Slot.head l1 := by
    rw [h.dfip_eq]
    exact slotAfter_not_reads l1 Slot.head hnd1 (fun x _ => by simp)
  have hB : Slot.next e ∉ readsOf Slot.head l1 :=
    next_not_reads Slot.head l1 e he1 (by simp)
  have hdfip_l2 : ∀ z ∈ l2, st.dfip ≠ Slot.next z := by
    intro z hz
    rw [h.dfip_eq]
    exact slotAfterFrom_ne_next Slot.head l1 z (by simp) (fun hc => hds hc hz)
  have hframe1 : ∀ s' ∈ readsOf Slot.head l1,
      (armDepthFirst e st).readSlot s' = st.readSlot s' := by
    intro s' hs'
    have h1 : ¬s' = st.dfip := by
      intro hc
      rw [hc] at hs'
      exact hA hs'
    have h2 : ¬s' = Slot.next e := by
      intro hc
      rw [hc] at hs'
      exact hB hs'
    rw [hrs s', if_neg h1, if_neg h2]
  have hchain := h.chain
  rw [chainTo_append] at hchain
  obtain ⟨hc1, hc2⟩ := hchain
  have hmid : (armDepthFirst e st).readSlot (slotAfterFrom Slot.head l1) = some e := by
    rw [← h.dfip_eq, hrs, if_pos rfl]
  refine ⟨?_, ?_, ?_, ?_, ?_, ?_, ?_⟩
  · -- chain
    have hgoal : (l1 ++ [e]) ++ l2 = l1 ++ e :: l2 := by simp
    rw [hgoal, chainTo_append]
    refine ⟨chainTo_congr st _ Slot.head l1 hframe1 hc1, ?_⟩
    rw [chainTo_cons]
    refine ⟨hmid, ?_⟩
    cases l2 with
    | nil => trivial
    | cons f l2' =>
      rw [chainTo_cons]
      constructor
      · rw [hrs, if_neg (Ne.symm hdne), if_pos rfl, hrd]
        rfl
      · have hfe : f ≠ e := fun hc => he2 (hc ▸ List.mem_cons_self f l2')
        have he2' : e ∉ l2' := fun hc => he2 (List.mem_cons_of_mem f hc)
        refine chainTo_congr st _ (Slot.next f) l2' ?_ hc2.2
        intro s' hs'
        have hs'1 : s' ≠ st.dfip := by
          intro hc
          rcases mem_readsOf l2' (Slot.next f) s' hs' with h' | ⟨x, hx, h'⟩
          · exact hdfip_l2 f (List.mem_cons_self f l2') (hc.symm.trans h')
          · exact hdfip_l2 x (List.mem_cons_of_mem f hx) (hc.symm.trans h')
        have hs'2 : s' ≠ Slot.next e := by
          intro hc
          rw [hc] at hs'
          exact next_not_reads (Slot.next f) l2' e he2' (by simp [hfe]) hs'
        rw [hrs s', if_neg hs'1, if_neg hs'2]
  · -- term
    have hgoal : slotAfterFrom Slot.head ((l1 ++ [e]) ++ l2)
        = slotAfterFrom (Slot.next e) l2 := by
      rw [slotAfterFrom_append, slotAfterFrom_concat]
    rw [hgoal]
    cases l2 with
    | nil =>
      rw [slotAfterFrom_nil, hrs, if_neg (Ne.symm hdne), if_pos rfl, hrd]
      rfl
    | cons f l2' =>
      have hfe : f ≠ e := fun hc => he2 (hc ▸ List.mem_cons_self f l2')
      have he2' : e ∉ l2' := fun hc => he2 (List.mem_cons_of_mem f hc)
      have hsl : slotAfterFrom (Slot.next e) (f :: l2')
          = slotAfterFrom Slot.head (l1 ++ f :: l2') := by
        rw [slotAfterFrom_append]
        exact slotAfterFrom_ne_nil _ _ _ (by simp)
      have hne1 : slotAfterFrom (Slot.next e) (f :: l2') ≠ st.dfip := by
        rw [slotAfterFrom_cons]
        rcases slotAfterFrom_shape l2' (Slot.next f) with h' | ⟨x, hx, h'⟩
        · rw [h']
          exact fun hc => hdfip_l2 f (List.mem_cons_self f l2') hc.symm
        · rw [h']
          exact fun hc => hdfip_l2 x (List.mem_cons_of_mem f hx) hc.symm
      have hne2 : slotAfterFrom (Slot.next e) (f :: l2') ≠ Slot.next e := by
        rw [slotAfterFrom_cons]
        exact slotAfterFrom_ne_next (Slot.next f) l2' e (by simp [hfe]) he2'
      rw [hrs, if_neg hne1, if_neg hne2, hsl]
      exact h.term
  · -- queued
    intro x hx
    rw [hpv x, hrd]
    cases l2 with
    | nil =>
      by_cases hxe : x = e
      · simp [hxe]
      · have hx' : x ∈ l1 ++ [] := by
          rcases List.mem_append.mp hx with h' | h'
          · rcases List.mem_append.mp h' with h'' | h''
            · simp [h'']
            · simp at h''
              exact absurd h'' hxe
          · simp at h'
        simp only [List.head?_nil, if_neg hxe]
        exact h.queued x hx'
    | cons f l2' =>
      have hef : ¬(e = f) := fun hc => he2 (hc ▸ List.mem_cons_self f l2')
      by_cases hxf : x = f
      · simp [hxf]
      · by_cases hxe : x = e
        · simp [hxf, hxe, hef]
        · have hx' : x ∈ l1 ++ f :: l2' := by
            rcases List.mem_append.mp hx with h' | h'
            · rcases List.mem_append.mp h' with h'' | h''
              · exact List.mem_append_left _ h''
              · simp at h''
                exact absurd h'' hxe
            · exact List.mem_append_right _ h'
          simp only [List.head?_cons, if_neg hxf, if_neg hxe]
          exact h.queued x hx'
  · -- unqueued
    intro x hx
    have hxe : x ≠ e := fun hc => hx (by
      apply List.mem_append_left
      apply List.mem_append_right
      simp [hc])
    have hx12 : x ∉ l1 ++ l2 := by
      intro hc
      apply hx
      rcases List.mem_append.mp hc with h' | h'
      · exact List.mem_append_left _ (List.mem_append_left _ h')
      · exact List.mem_append_right _ h'
    have hx2 : x ∉ l2 := fun hc => hx12 (List.mem_append_right _ hc)
    rw [hpv x, hrd]
    cases l2 with
    | nil =>
      simp only [List.head?_nil, if_neg hxe]
      exact h.unqueued x hx12
    | cons f l2' =>
      have hxf : x ≠ f := fun hc => hx2 (hc ▸ List.mem_cons_self f l2')
      simp only [List.head?_cons, if_neg hxf, if_neg hxe]
      exact h.unqueued x hx12
  · -- nodup
    have hgoal : (l1 ++ [e]) ++ l2 = l1 ++ e :: l2 := by simp
    rw [hgoal, List.nodup_middle, List.nodup_cons]
    exact ⟨he, hnd12⟩
  · -- tail
    rw [tail_armDepthFirst st e hfresh]
    by_cases hte : st.tail = st.dfip
    · have hl2 : l2 = [] := h.tail_eq_dfip_iff.mp hte
      subst hl2
      rw [if_pos hte, List.append_nil, slotAfterFrom_concat]
    · rw [if_neg hte]
      have hl2 : l2 ≠ [] := fun hc => hte (h.tail_eq_dfip_iff.mpr hc)
      rw [h.tail_eq, slotAfterFrom_append, slotAfterFrom_append,
        slotAfterFrom_ne_nil (slotAfterFrom Slot.head l1)
          (slotAfterFrom Slot.head (l1 ++ [e])) l2 hl2]
  · -- dfip
    rw [dfip_armDepthFirst st e hfresh, slotAfterFrom_concat]

/-- Breadth-first arming a fresh event appends it at the tail, after every
currently queued event, leaving the depth-first insert point alone. -/
theorem QueueInvAt.armBF {st : LoopState} {l1 l2 : List EventId}
    (h : QueueInvAt st l1 l2) (e : EventId) (he : e ∉ l1 ++ l2) :
    QueueInvAt (armBreadthFirst e st) l1 (l2 ++ [e]) := by
  have hnd12 := h.nodup
  have hfresh : st.prevOf e = none := h.unqueued e he
  have hrt : st.readSlot st.tail = none := by rw [h.tail_eq]; exact h.term
  have htne : st.tail ≠ Slot.next e := by
    rw [h.tail_eq]
    exact slotAfterFrom_ne_next Slot.head _ e (by simp) he
  have hrs := readSlot_armBreadthFirst st e hfresh
  have hpv := prevOf_armBreadthFirst st e hfresh
  have hpv' : ∀ x, (armBreadthFirst e st).prevOf x =
      if x = e then some st.tail else st.prevOf x := by
    intro x
    rw [hpv x, hrt]
  have hA : st.tail ∉ readsOf Slot.head (l1 ++ l2) := by
    rw [h.tail_eq]
    exact slotAfter_not_reads _ Slot.head hnd12 (fun x _ => by simp)
  have hB : Slot.next e ∉ readsOf Slot.head (l1 ++ l2) :=
    next_not_reads Slot.head _ e he (by simp)
  have hframe : ∀ s' ∈ readsOf Slot.head (l1 ++ l2),
      (armBreadthFirst e st).readSlot s' = st.readSlot s' := by
    intro s' hs'
    have h1 : ¬s' = st.tail := by
      intro hc
      rw [hc] at hs'
      exact hA hs'
    have h2 : ¬s' = Slot.next e := by
      intro hc
      rw [hc] at hs'
      exact hB hs'
    rw [hrs s', if_neg h1, if_neg h2]
  refine ⟨?_, ?_, ?_, ?_, ?_, ?_, ?_⟩
  · -- chain
    have hgoal : l1 ++ (l2 ++ [e]) = (l1 ++ l2) ++ [e] := by simp
    rw [hgoal, chainTo_append]
    refine ⟨chainTo_congr st _ Slot.head (l1 ++ l2) hframe h.chain, ?_⟩
    rw [chainTo_cons]
    refine ⟨?_, trivial⟩
    rw [← h.tail_eq, hrs, if_pos rfl]
  · -- term
    have hgoal : slotAfterFrom Slot.head (l1 ++ (l2 ++ [e])) = Slot.next e := by
      rw [← List.append_assoc, slotAfterFrom_concat]
    rw [hgoal, hrs, if_neg (Ne.symm htne), if_pos rfl]
    exact hrt
  · -- queued
    intro x hx
    rw [hpv' x]
    by_cases hxe : x = e
    · simp [hxe]
    · have hx' : x ∈ l1 ++ l2 := by
        rcases List.mem_append.mp hx with h' | h'
        · exact List.mem_append_left _ h'
        · rcases List.mem_append.mp h' with h'' | h''
          · exact List.mem_append_right _ h''
          · simp at h''
            exact absurd h'' hxe
      rw [if_neg hxe]
      exact h.queued x hx'
  · -- unqueued
    intro x hx
    have hxe : x ≠ e := fun hc => hx (by
      apply List.mem_append_right
      apply List.mem_append_right
      simp [hc])
    have hx12 : x ∉ l1 ++ l2 := by
      intro hc
      apply hx
      rcases List.mem_append.mp hc with h' | h'
      · exact List.mem_append_left _ h'
      · exact List.mem_append_right _ (List.mem_append_left _ h')
    rw [hpv' x, if_neg hxe]
    exact h.unqueued x hx12
  · -- nodup
    have hgoal : l1 ++ (l2 ++ [e]) = (l1 ++ l2) ++ [e] := by simp
    rw [hgoal, List.nodup_append]
    refine ⟨hnd12, List.nodup_singleton e, ?_⟩
    intro y hy hy'
    simp only [List.mem_singleton] at hy'
    exact he (hy' ▸ hy)
  · -- tail
    rw [tail_armBreadthFirst st e hfresh, ← List.append_assoc, slotAfterFrom_concat]
  · -- dfip
    rw [dfip_armBreadthFirst st e hfresh]
    exact h.dfip_eq

/-- Popping the head of a nonempty well-formed queue yields the expected
successor state: the queue spells the rest, and the depth-first insert
point is the `head` slot, which holds the popped event's successor. -/
theorem QueueInvAt.pop {st : LoopState} {l1 l2 : List EventId}
    (h : QueueInvAt st l1 l2) (E : EventId) (rest : List EventId)
    (hsplit : l1 ++ l2 = E :: rest) :
    ∃ st', popStep st = some (E, st') ∧ QueueInvAt st' [] rest ∧
      st'.dfip = Slot.head ∧ st'.readSlot Slot.head = rest.head? := by
  have hchain : chainTo st Slot.head (E :: rest) := by rw [← hsplit]; exact h.chain
  have hhead : st.headE = some E := by
    have := hchain.1
    simpa using this
  have hterm : st.readSlot (slotAfterFrom Slot.head (E :: rest)) = none := by
    rw [← hsplit]; exact h.term
  have hndER : (E :: rest).Nodup := by rw [← hsplit]; exact h.nodup
  have hEnr : E ∉ rest := (List.nodup_cons.mp hndER).1
  have htl : st.tail = slotAfterFrom Slot.head (E :: rest) := by
    rw [← hsplit]; exact h.tail_eq
  have hnE : st.nextOf E = rest.head? := by
    cases rest with
    | nil => simpa using hterm
    | cons f rest' =>
      have := hchain.2.1
      simpa using this
  rw [popStep_eq st E hhead]
  refine ⟨_, rfl, ?_, rfl, ?_⟩
  · constructor
    · -- chain
      show chainTo _ Slot.head rest
      cases rest with
      | nil => trivial
      | cons f rest' =>
        have hfE : f ≠ E := fun hc => hEnr (hc ▸ List.mem_cons_self f rest')
        have hEr' : E ∉ rest' := fun hc => hEnr (List.mem_cons_of_mem f hc)
        rw [chainTo_cons]
        constructor
        · show st.nextOf E = some f
          rw [hnE]
          rfl
        · refine chainTo_congr st _ (Slot.next f) rest' ?_ hchain.2.2
          intro s' hs'
          have hs1 : s' ≠ Slot.head := by
            rcases mem_readsOf rest' (Slot.next f) s' hs' with h' | ⟨x, _, h'⟩ <;>
              simp [h']
          have hs2 : s' ≠ Slot.next E := by
            intro hc
            rw [hc] at hs'
            exact next_not_reads (Slot.next f) rest' E hEr' (by simp [hfE]) hs'
          cases s' with
          | head => exact absurd rfl hs1
          | next x =>
            have hxE : x ≠ E := fun hc => hs2 (by rw [hc])
            show (if x = E then none else st.nextOf x) = st.nextOf x
            rw [if_neg hxE]
    · -- term
      show LoopState.readSlot _ (slotAfterFrom Slot.head rest) = none
      cases rest with
      | nil =>
        show st.nextOf E = none
        simpa using hterm
      | cons f rest' =>
        have hfE : f ≠ E := fun hc => hEnr (hc ▸ List.mem_cons_self f rest')
        have hEr' : E ∉ rest' := fun hc => hEnr (List.mem_cons_of_mem f hc)
        have hsl : slotAfterFrom Slot.head (f :: rest')
            = slotAfterFrom Slot.head (E :: f :: rest') := rfl
        have hne : slotAfterFrom Slot.head (f :: rest') ≠ Slot.next E := by
          rw [slotAfterFrom_cons]
          exact slotAfterFrom_ne_next (Slot.next f) rest' E (by simp [hfE]) hEr'
        cases hshape : slotAfterFrom Slot.head (f :: rest') with
        | head =>
          exfalso
          rcases slotAfterFrom_shape rest' (Slot.next f) with h' | ⟨x, _, h'⟩ <;>
            rw [slotAfterFrom_cons] at hshape <;>
              rw [h'] at hshape <;> exact Slot.noConfusion hshape
        | next z =>
          have hzE : z ≠ E := fun hc => hne (by rw [hshape, hc])
          show (if z = E then none else st.nextOf z) = none
          rw [if_neg hzE]
          have : st.readSlot (Slot.next z) = none := by
            rw [← hshape, hsl]
            exact hterm
          simpa using this
    · -- queued
      intro x hx
      have hx' : x ∈ rest := by simpa using hx
      have hxE : x ≠ E := fun hc => hEnr (hc ▸ hx')
      show ¬(if x = E then none else st.prevOf x) = none
      rw [if_neg hxE]
      exact h.queued x (by rw [hsplit]; exact List.mem_cons_of_mem E hx')
    · -- unqueued
      intro x hx
      have hx' : x ∉ rest := by simpa using hx
      show (if x = E then none else st.prevOf x) = none
      by_cases hxE : x = E
      · rw [if_pos hxE]
      · rw [if_neg hxE]
        refine h.unqueued x ?_
        rw [hsplit]
        intro hc
        rcases List.mem_cons.mp hc with h' | h'
        · exact hxE h'
        · exact hx' h'
    · -- nodup
      simpa using (List.nodup_cons.mp hndER).2
    · -- tail
      show (if st.tail = Slot.next E then Slot.head else st.tail)
          = slotAfterFrom Slot.head ([] ++ rest)
      cases rest with
      | nil =>
        have : st.tail = Slot.next E := by simpa using htl
        rw [if_pos this]
        rfl
      | cons f rest' =>
        have hfE : f ≠ E := fun hc => hEnr (hc ▸ List.mem_cons_self f rest')
        have hEr' : E ∉ rest' := fun hc => hEnr (List.mem_cons_of_mem f hc)
        have hne : st.tail ≠ Slot.next E := by
          rw [htl]
          show slotAfterFrom (Slot.next E) (f :: rest') ≠ Slot.next E
          rw [slotAfterFrom_cons]
          exact slotAfterFrom_ne_next (Slot.next f) rest' E (by simp [hfE]) hEr'
        rw [if_neg hne, htl]
        rfl
    · -- dfip
      rfl
  · -- the head slot holds the popped event's successor
    show st.nextOf E = rest.head?
    exact hnE

/-- Setting a firing flag does not disturb the queue invariant. -/
theorem QueueInvAt.setFiring {st : LoopState} {l1 l2 : List EventId}
    (h : QueueInvAt st l1 l2) (e : EventId) (b : Bool) :
    QueueInvAt (st.setFiring e b) l1 l2 := by
  refine ⟨?_, ?_, ?_, ?_, h.nodup, ?_, ?_⟩
  · exact chainTo_congr st _ Slot.head _ (fun s' _ => readSlot_setFiring st e b s') h.chain
  · rw [readSlot_setFiring]
    exact h.term
  · intro x hx
    show ¬st.prevOf x = none
    exact h.queued x hx
  · intro x hx
    show st.prevOf x = none
    exact h.unqueued x hx
  · show st.tail = _
    exact h.tail_eq
  · show st.dfip = _
    exact h.dfip_eq

/-- Resetting the depth-first insert point to the head slot (done by the
loop right after popping and again after `fire()` returns) re-roots the
split at the front of the queue. -/
theorem QueueInvAt.resetDfip {st : LoopState} {l1 l2 : List EventId}
    (h : QueueInvAt st l1 l2) :
    QueueInvAt ({ st with dfip := Slot.head }) [] (l1 ++ l2) := by
  refine ⟨?_, ?_, ?_, ?_, h.nodup, ?_, rfl⟩
  · exact chainTo_congr st _ Slot.head _ (fun s' _ => readSlot_withDfip st Slot.head s') h.chain
  · rw [readSlot_withDfip]
    exact h.term
  · intro x hx
    exact h.queued x (by simpa using hx)
  · intro x hx
    exact h.unqueued x (by simpa using hx)
  · show st.tail = _
    exact h.tail_eq

/-- Depth-first arming a sequence of fresh events from within a fire
inserts them, in order, at the advancing insert point. -/
theorem QueueInvAt.runActions_armDF : ∀ (xs : List EventId) {st : LoopState}
    {l1 l2 : List EventId}, QueueInvAt st l1 l2 → xs.Nodup →
    (∀ x ∈ xs, x ∉ l1 ++ l2) →
    QueueInvAt (runActions (xs.map Action.armDF) st) (l1 ++ xs) l2 := by
  intro xs
  induction xs with
  | nil =>
    intro st l1 l2 h _ _
    rw [List.append_nil]
    exact h
  | cons x xs ih =>
    intro st l1 l2 h hnd hfr
    have hx : x ∉ l1 ++ l2 := hfr x (List.mem_cons_self x xs)
    have hxxs : x ∉ xs := (List.nodup_cons.mp hnd).1
    have h1 := h.armDF x hx
    have h2 : QueueInvAt (runActions (xs.map Action.armDF) (armDepthFirst x st))
        ((l1 ++ [x]) ++ xs) l2 := by
      refine ih h1 (List.nodup_cons.mp hnd).2 ?_
      intro y hy hc
      rcases List.mem_append.mp hc with h' | h'
      · rcases List.mem_append.mp h' with h'' | h''
        · exact hfr y (List.mem_cons_of_mem x hy) (List.mem_append_left _ h'')
        · simp only [List.mem_singleton] at h''
          exact hxxs (h'' ▸ hy)
      · exact hfr y (List.mem_cons_of_mem x hy) (List.mem_append_right _ h')
    have hl : (l1 ++ [x]) ++ xs = l1 ++ x :: xs := by simp
    rw [hl] at h2
    exact h2

/-- One full loop iteration on a nonempty queue, when the fired event's
callback depth-first-arms the fresh events `xs`: the event pops, and the
queue afterwards spells `xs ++ rest`. -/
theorem QueueInv.loopStep_armDF {st : LoopState} {E : EventId} {rest xs : List EventId}
    (fs : EventId → List Action) (h : QueueInv st (E :: rest))
    (hfs : fs E = xs.map Action.armDF) (hnd : xs.Nodup)
    (hfr : ∀ x ∈ xs, x ∉ E :: rest) :
    ∃ st', loopStep fs st = some (E, st') ∧ QueueInvAt st' [] (xs ++ rest) := by
  obtain ⟨l1, l2, hsp, hat⟩ := h
  obtain ⟨st1, hpop, hinv1, _, _⟩ := hat.pop E rest hsp.symm
  have hinv2 := hinv1.setFiring E true
  have hinv3 : QueueInvAt (runActions (fs E) (st1.setFiring E true)) ([] ++ xs) rest := by
    rw [hfs]
    refine QueueInvAt.runActions_armDF xs hinv2 hnd ?_
    intro x hx hc
    exact hfr x hx (by simpa using List.mem_cons_of_mem E (show x ∈ rest by simpa using hc))
  have hinv4 := hinv3.setFiring E false
  have hinv5 := hinv4.resetDfip
  refine ⟨{ (runActions (fs E) (st1.setFiring E true)).setFiring E false with
    dfip := Slot.head }, ?_, ?_⟩
  · unfold loopStep
    rw [hpop]
  · simpa using hinv5

/-- With no further arms, the loop fires the queued events in exactly
queue order. -/
theorem runLoop_order : ∀ (l : List EventId) (st : LoopState)
    (fs : EventId → List Action), QueueInv st l → (∀ y ∈ l, fs y = []) →
    runLoop fs l.length st = l := by
  intro l
  induction l with
  | nil => intro st fs _ _; rfl
  | cons E rest ih =>
    intro st fs h hfs
    obtain ⟨st', hstep, hinv'⟩ := @QueueInv.loopStep_armDF st E rest [] fs h
      (by rw [hfs E (List.mem_cons_self E rest)]; rfl) List.nodup_nil
      (by intro x hx; simp at hx)
    have hrun : runLoop fs (E :: rest).length st = E :: runLoop fs rest.length st' := by
      rw [List.length_cons]
      show runLoop fs (rest.length + 1) st = _
      simp only [runLoop]
      rw [hstep]
    rw [hrun, ih st' fs ⟨[], rest, rfl, hinv'⟩
      (fun y hy => hfs y (List.mem_cons_of_mem E hy))]

/-- Firing an event whose callback depth-first-arms the fresh events `xs`
makes the loop run them immediately after it and strictly before every
event that was behind it in the queue: the subsequent firing order is
`E`, then `xs`, then `rest`. -/
theorem runLoop_depthFirst_order {st : LoopState} {E : EventId} {rest xs : List EventId}
    (fs : EventId → List Action) (h : QueueInv st (E :: rest))
    (hfs : fs E = xs.map Action.armDF) (hnd : xs.Nodup)
    (hfr : ∀ x ∈ xs, x ∉ E :: rest)
    (hquiet : ∀ y ∈ xs ++ rest, fs y = []) :
    runLoop fs ((xs ++ rest).length + 1) st = E :: (xs ++ rest) := by
  obtain ⟨st', hstep, hinv'⟩ := QueueInv.loopStep_armDF fs h hfs hnd hfr
  have hrun : runLoop fs ((xs ++ rest).length + 1) st
      = E :: runLoop fs (xs ++ rest).length st' := by
    simp only [runLoop]
    rw [hstep]
  rw [hrun, runLoop_order (xs ++ rest) st' fs ⟨[], xs ++ rest, rfl, hinv'⟩ hquiet]

/-!
## Claim theorems

Concrete states and fire tables used in the claim theorems and witnesses.
-/

/-- The literal scenario of spec section 8: A = 0, B = 1, C = 2 are queued;
A's fire depth-first-arms X = 3 and B's fire depth-first-arms Y = 4. -/
def scenarioFire : EventId → List Action := fun e =>
  if e = 0 then [Action.armDF 3] else if e = 1 then [Action.armDF 4] else []

/-- Loop state with A = 0, B = 1, C = 2 queued breadth-first, in order. -/
def scenarioState : LoopState :=
  armBreadthFirst 2 (armBreadthFirst 1 (armBreadthFirst 0 emptyLoop))

/-- A loop state whose queue holds the single event `0`. -/
def singletonState : LoopState :=
  { nextOf := fun _ => none
    prevOf := fun x => if x = 0 then some Slot.head else none
    headE := some 0
    tail := Slot.next 0
    dfip := Slot.head
    firing := fun _ => false }

theorem singletonState_inv : QueueInvAt singletonState [] [0] := by
  refine ⟨?_, ?_, ?_, ?_, ?_, ?_, ?_⟩
  · simp [singletonState]
  · simp [singletonState]
  · intro x hx
    simp only [List.nil_append, List.mem_singleton] at hx
    simp [singletonState, hx]
  · intro x hx
    simp only [List.nil_append, List.mem_singleton] at hx
    simp [singletonState, hx]
  · simp
  · simp [singletonState]
  · rfl

/-- C1: every event armed depth-first during the fire of the popped event
`E` runs strictly before every event that followed `E` in the queue at the
time `E` fired — the firing order is `E`, then the depth-first arms `xs`
in order, then the old remainder `rest`; concretely, queuing events A, B,
C where A's fire depth-first-arms X and B's fire depth-first-arms Y yields
the firing order A, X, B, Y, C. -/
theorem c1_depth_first_nesting {st : LoopState} {E : EventId} {rest xs : List EventId}
    (fs : EventId → List Action) (h : QueueInv st (E :: rest))
    (hfs : fs E = xs.map Action.armDF) (hnd : xs.Nodup)
    (hfr : ∀ x ∈ xs, x ∉ E :: rest)
    (hquiet : ∀ y ∈ xs ++ rest, fs y = []) :
    runLoop fs ((xs ++ rest).length + 1) st = E :: (xs ++ rest)
    ∧ runLoop scenarioFire 5 scenarioState = [0, 3, 1, 4, 2] :=
  ⟨runLoop_depthFirst_order fs h hfs hnd hfr hquiet, by decide⟩

theorem c1_witness :
    runLoop (fun _ => []) ((([] : List EventId) ++ []).length + 1) singletonState
        = 0 :: (([] : List EventId) ++ [])
    ∧ runLoop scenarioFire 5 scenarioState = [0, 3, 1, 4, 2] :=
  c1_depth_first_nesting (fun _ => []) ⟨[], [0], rfl, singletonState_inv⟩ rfl
    List.nodup_nil (by simp) (by simp)

/-- C2: a breadth-first arm appends the fresh event at the current queue
tail, so it fires strictly after every event queued at arm time (and after
all earlier breadth-first arms, FIFO); and the yield node's `onReady` arms
the supplied event breadth-first and returns false, while its `get` yields
void. -/
theorem c2_breadth_first_fifo_and_yield {st : LoopState} {l1 l2 : List EventId} (e : EventId)
    (h : QueueInvAt st l1 l2) (he : e ∉ l1 ++ l2) :
    QueueInvAt (armBreadthFirst e st) l1 (l2 ++ [e])
    ∧ (∀ fs : EventId → List Action, (∀ y ∈ l1 ++ (l2 ++ [e]), fs y = []) →
        runLoop fs (l1 ++ (l2 ++ [e])).length (armBreadthFirst e st) = l1 ++ (l2 ++ [e]))
    ∧ (∀ (ev : EventId) (st₀ : LoopState),
        YieldPromiseNode.onReady ev st₀ = (armBreadthFirst ev st₀, false))
    ∧ YieldPromiseNode.get = { value := some (), exceptions := [] } := by
  have harm := h.armBF e he
  exact ⟨harm,
    fun fs hq => runLoop_order _ _ fs ⟨l1, l2 ++ [e], rfl, harm⟩ hq,
    fun ev st₀ => rfl, rfl⟩

theorem c2_witness :
    QueueInvAt (armBreadthFirst 1 singletonState) [] ([0] ++ [1])
    ∧ (∀ fs : EventId → List Action, (∀ y ∈ ([] : List EventId) ++ ([0] ++ [1]), fs y = []) →
        runLoop fs (([] : List EventId) ++ ([0] ++ [1])).length (armBreadthFirst 1 singletonState)
          = ([] : List EventId) ++ ([0] ++ [1]))
    ∧ (∀ (ev : EventId) (st₀ : LoopState),
        YieldPromiseNode.onReady ev st₀ = (armBreadthFirst ev st₀, false))
    ∧ YieldPromiseNode.get = { value := some (), exceptions := [] } :=
  c2_breadth_first_fifo_and_yield 1 singletonState_inv (by decide)

/-- C6: right after the loop pops event `E` — hence before its `fire()`
runs — `depthFirstInsertPoint` is the `head` slot, which holds `E`'s
successor; after the loop iteration completes, `depthFirstInsertPoint` is
again the `head` slot; and each depth-first insertion installs the event
at the insert point and advances the insert point just past it. -/
theorem c6_dfip_tracks_successor {st : LoopState} {l1 l2 : List EventId} {E : EventId}
    {rest : List EventId} (h : QueueInvAt st l1 l2) (hsplit : l1 ++ l2 = E :: rest) :
    (∃ st', popStep st = some (E, st') ∧ st'.dfip = Slot.head
      ∧ st'.readSlot Slot.head = rest.head?)
    ∧ (∀ (fs : EventId → List Action) (E' : EventId) (st₁ : LoopState),
        loopStep fs st = some (E', st₁) → st₁.dfip = Slot.head)
    ∧ (∀ (st₀ : LoopState) (x : EventId), st₀.prevOf x = none →
        (armDepthFirst x st₀).dfip = Slot.next x
        ∧ (armDepthFirst x st₀).readSlot st₀.dfip = some x) := by
  refine ⟨?_, ?_, ?_⟩
  · obtain ⟨st', hpop, _, hd, hr⟩ := h.pop E rest hsplit
    exact ⟨st', hpop, hd, hr⟩
  · intro fs E' st₁ hstep
    unfold loopStep at hstep
    cases hp : popStep st with
    | none =>
      rw [hp] at hstep
      exact absurd hstep (by simp)
    | some pr =>
      obtain ⟨ev, st1⟩ := pr
      rw [hp] at hstep
      simp only [Option.some.injEq, Prod.mk.injEq] at hstep
      obtain ⟨_, hst⟩ := hstep
      rw [← hst]
  · intro st₀ x hx
    refine ⟨dfip_armDepthFirst st₀ x hx, ?_⟩
    rw [readSlot_armDepthFirst st₀ x hx, if_pos rfl]

theorem c6_witness :
    ((∃ st', popStep singletonState = some (0, st') ∧ st'.dfip = Slot.head
      ∧ st'.readSlot Slot.head = ([] : List EventId).head?)
    ∧ (∀ (fs : EventId → List Action) (E' : EventId) (st₁ : LoopState),
        loopStep fs singletonState = some (E', st₁) → st₁.dfip = Slot.head)
    ∧ (∀ (st₀ : LoopState) (x : EventId), st₀.prevOf x = none →
        (armDepthFirst x st₀).dfip = Slot.next x
        ∧ (armDepthFirst x st₀).readSlot st₀.dfip = some x)) :=
  c6_dfip_tracks_successor singletonState_inv rfl

/-- C9: arming an event that is already enqueued (`prev != nullptr`) is a
no-op for both arming modes — the whole loop state is unchanged — and
consequently arming the same event twice before it fires is the same as
arming it once. -/
theorem c9_arm_enqueued_noop (st : LoopState) (e : EventId) (h : st.prevOf e ≠ none) :
    armDepthFirst e st = st ∧ armBreadthFirst e st = st
    ∧ (∀ (st₀ : LoopState) (x : EventId),
        armDepthFirst x (armDepthFirst x st₀) = armDepthFirst x st₀
        ∧ armBreadthFirst x (armBreadthFirst x st₀) = armBreadthFirst x st₀) := by
  obtain ⟨s, hs⟩ := Option.ne_none_iff_exists'.mp h
  refine ⟨(arm_noop st e s hs).1, (arm_noop st e s hs).2, ?_⟩
  intro st₀ x
  constructor
  · cases h0 : st₀.prevOf x with
    | some s0 => rw [(arm_noop st₀ x s0 h0).1, (arm_noop st₀ x s0 h0).1]
    | none =>
      have h1 : (armDepthFirst x st₀).prevOf x ≠ none := by
        rw [prevOf_armDepthFirst st₀ x h0]
        cases hn : st₀.readSlot st₀.dfip with
        | none => simp
        | some n => by_cases hxn : x = n <;> simp [hxn]
      obtain ⟨s1, hs1⟩ := Option.ne_none_iff_exists'.mp h1
      exact (arm_noop _ x s1 hs1).1
  · cases h0 : st₀.prevOf x with
    | some s0 => rw [(arm_noop st₀ x s0 h0).2, (arm_noop st₀ x s0 h0).2]
    | none =>
      have h1 : (armBreadthFirst x st₀).prevOf x ≠ none := by
        rw [prevOf_armBreadthFirst st₀ x h0]
        cases hn : st₀.readSlot st₀.tail with
        | none => simp
        | some n => by_cases hxn : x = n <;> simp [hxn]
      obtain ⟨s1, hs1⟩ := Option.ne_none_iff_exists'.mp h1
      exact (arm_noop _ x s1 hs1).2

theorem c9_witness :
    armDepthFirst 0 singletonState = singletonState
    ∧ armBreadthFirst 0 singletonState = singletonState
    ∧ (∀ (st₀ : LoopState) (x : EventId),
        armDepthFirst x (armDepthFirst x st₀) = armDepthFirst x st₀
        ∧ armBreadthFirst x (armBreadthFirst x st₀) = armBreadthFirst x st₀) :=
  c9_arm_enqueued_noop singletonState 0 (by simp [singletonState])

/-- C3: when a Chain node in STEP1 fires it reads the intermediate result
and releases the step-1 dependency; if the intermediate carries an
exception any value is discarded and an immediate-broken node becomes the
new inner, otherwise the intermediate promise's own node becomes the new
inner; consequently a Chain whose step-1 resolved to a rejected promise
delivers that rejection to step-2 consumers via `get`. -/
theorem c3_chain_fire (ors : Option EventId) (st : LoopState) (e : Exception)
    (es : List Exception) (v : Option VNode) (n : VNode) :
    (ChainPromiseNode.fire
        { inner := ChainInner.step1 { value := v, exceptions := e :: es },
          onReadyEvent := ors } st).map (fun r => r.1.inner)
      = some (ChainInner.step2 (VNode.immediateBroken e))
    ∧ (ChainPromiseNode.fire
        { inner := ChainInner.step1 { value := some n, exceptions := [] },
          onReadyEvent := ors } st).map (fun r => r.1.inner)
      = some (ChainInner.step2 n)
    ∧ (ChainPromiseNode.fire
        { inner := ChainInner.step1
            { value := some (VNode.immediateBroken e), exceptions := [] },
          onReadyEvent := ors } st).bind (fun r => r.1.get)
      = some { value := none, exceptions := [e] } := by
  refine ⟨?_, ?_, ?_⟩
  · cases ors with
    | none => rfl
    | some ev => rfl
  · cases ors with
    | none => rfl
    | some ev =>
      cases hn : n.onReady ev <;>
        simp [ChainPromiseNode.fire, hn]
  · cases ors with
    | none => rfl
    | some ev => rfl

/-- C4: when one branch of an ExclusiveJoin fires, the other branch's
dependency is released (cancellation, with any exception from that release
swallowed — the result does not depend on the losing dependency at all),
then the shared on-ready event is armed; `get` asks the left branch then
the right branch, and exactly the surviving branch supplies the result. -/
theorem c4_exclusive_join (a b : VNode) (o : OnReadyState) (st : LoopState)
    (h : o ≠ OnReadyState.alreadyReady) :
    ∃ o' st', OnReadyEvent.arm { event := o } st = some (o', st')
    ∧ ExclusiveJoinPromiseNode.branchFire
        { left := { dependency := some a }, right := { dependency := some b },
          onReadyEvent := { event := o } } EJSide.left st
      = some ({ left := { dependency := some a }, right := { dependency := none },
                onReadyEvent := o' }, st')
    ∧ ExclusiveJoinPromiseNode.get
        { left := { dependency := some a }, right := { dependency := none },
          onReadyEvent := o' } = some a.get
    ∧ ExclusiveJoinPromiseNode.branchFire
        { left := { dependency := some a }, right := { dependency := some b },
          onReadyEvent := { event := o } } EJSide.right st
      = some ({ left := { dependency := none }, right := { dependency := some b },
                onReadyEvent := o' }, st')
    ∧ ExclusiveJoinPromiseNode.get
        { left := { dependency := none }, right := { dependency := some b },
          onReadyEvent := o' } = some b.get := by
  cases o with
  | unset =>
    exact ⟨{ event := OnReadyState.alreadyReady }, st, rfl, rfl, rfl, rfl, rfl⟩
  | alreadyReady => exact absurd rfl h
  | eventPtr ev =>
    exact ⟨{ event := OnReadyState.eventPtr ev }, armDepthFirst ev st, rfl, rfl, rfl, rfl, rfl⟩

theorem c4_witness :
    ∃ o' st', OnReadyEvent.arm { event := OnReadyState.eventPtr 5 } emptyLoop = some (o', st')
    ∧ ExclusiveJoinPromiseNode.branchFire
        { left := { dependency := some VNode.immediateVoid },
          right := { dependency := some (VNode.immediateBroken { msg := 1 }) },
          onReadyEvent := { event := OnReadyState.eventPtr 5 } } EJSide.left emptyLoop
      = some ({ left := { dependency := some VNode.immediateVoid },
                right := { dependency := none }, onReadyEvent := o' }, st')
    ∧ ExclusiveJoinPromiseNode.get
        { left := { dependency := some VNode.immediateVoid },
          right := { dependency := none }, onReadyEvent := o' }
      = some VNode.immediateVoid.get
    ∧ ExclusiveJoinPromiseNode.branchFire
        { left := { dependency := some VNode.immediateVoid },
          right := { dependency := some (VNode.immediateBroken { msg := 1 }) },
          onReadyEvent := { event := OnReadyState.eventPtr 5 } } EJSide.right emptyLoop
      = some ({ left := { dependency := none },
                right := { dependency := some (VNode.immediateBroken { msg := 1 }) },
                onReadyEvent := o' }, st')
    ∧ ExclusiveJoinPromiseNode.get
        { left := { dependency := none },
          right := { dependency := some (VNode.immediateBroken { msg := 1 }) },
          onReadyEvent := o' }
      = some (VNode.immediateBroken { msg := 1 }).get :=
  c4_exclusive_join VNode.immediateVoid (VNode.immediateBroken { msg := 1 })
    (OnReadyState.eventPtr 5) emptyLoop (by decide)

/-- C5 counterexample: `OnReadyEvent::init` does not detect a second
registration — calling it with event 2 while event 1 is already stored
returns normally (`false`) and silently overwrites the stored pointer, so
the claim that a second `on_ready` call is always a detected error is
false on this concrete input. -/
theorem c5_counterexample :
    (OnReadyEvent.init { event := OnReadyState.eventPtr 1 } 2).1.event
        = OnReadyState.eventPtr 2
    ∧ OnReadyState.eventPtr 2 ≠ OnReadyState.eventPtr 1
    ∧ (OnReadyEvent.init { event := OnReadyState.eventPtr 1 } 2).2 = false :=
  ⟨rfl, by decide, rfl⟩

/-- C5 (amended): `on_ready` is contractually called at most once per
node; `ChainPromiseNode` detects a second call in STEP1 with an assertion
(`onReady() can only be called once`), but `OnReadyEvent::init`-based
nodes do not detect a second call — the second registration silently
overwrites the first and reports not-ready. -/
theorem c5_on_ready_single_use (r : ExceptionOr VNode) (ev ev' : EventId) :
    ChainPromiseNode.onReady
        { inner := ChainInner.step1 r, onReadyEvent := some ev } ev' = none
    ∧ (∀ e1 e2 : EventId, OnReadyEvent.init { event := OnReadyState.eventPtr e1 } e2
        = ({ event := OnReadyState.eventPtr e2 }, false)) :=
  ⟨rfl, fun _ _ => rfl⟩

/-- C7: the OnReadyEvent helper is a three-state machine over unset /
already-ready sentinel / event pointer: `init` sends unset to the event
pointer returning false, and from the sentinel returns true without
storing the event; `arm` sends unset to the sentinel, and from an event
pointer arms the stored event depth-first. -/
theorem c7_on_ready_event_machine (e : EventId) (st : LoopState) :
    OnReadyEvent.init { event := OnReadyState.unset } e
      = ({ event := OnReadyState.eventPtr e }, false)
    ∧ OnReadyEvent.init { event := OnReadyState.alreadyReady } e
      = ({ event := OnReadyState.alreadyReady }, true)
    ∧ OnReadyEvent.arm { event := OnReadyState.unset } st
      = some ({ event := OnReadyState.alreadyReady }, st)
    ∧ OnReadyEvent.arm { event := OnReadyState.eventPtr e } st
      = some ({ event := OnReadyState.eventPtr e }, armDepthFirst e st) :=
  ⟨rfl, rfl, rfl, rfl⟩

/-- C8: when a TaskSet entry fires it extracts the void result, routes any
exception (including one thrown while destroying the node) to the error
handler, and removes itself from the collection, transferring its own
ownership out through fire's return value; and destroying the TaskSet
moves every remaining member out to a temporary sequence, so each member
is freed even when member destructors throw. -/
theorem c8_taskset_fire (ts : TaskSetImpl) (id : EventId) (node : VNode)
    (hmem : id ∈ ts.tasks.map Prod.fst) :
    ∃ ts', TaskSetImpl.taskFire ts id node = some (ts', id)
    ∧ ts'.tasks = ts.tasks.filter (fun p => p.1 ≠ id)
    ∧ id ∉ ts'.tasks.map Prod.fst
    ∧ ts'.errorLog = ts.errorLog ++
        (match (match node.dtorException with
          | some e => node.get.addException e
          | none => node.get).exceptions with
         | e :: _ => [e]
         | [] => [])
    ∧ (∀ m ∈ ts.tasks, m ∈ TaskSetImpl.destructorDeleteMe ts) := by
  have hany : ts.tasks.any (fun p => p.1 = id) = true := by
    rw [List.any_eq_true]
    obtain ⟨p, hp, hp1⟩ := List.mem_map.mp hmem
    exact ⟨p, hp, by simp [hp1]⟩
  have hne : ¬ts.tasks.isEmpty := by
    intro hc
    rw [List.isEmpty_iff] at hc
    rw [hc] at hmem
    simp at hmem
  refine ⟨{ tasks := ts.tasks.filter (fun p => p.1 ≠ id),
            errorLog := ts.errorLog ++
              (match (match node.dtorException with
                | some e => node.get.addException e
                | none => node.get).exceptions with
               | e :: _ => [e]
               | [] => []) }, ?_, rfl, ?_, rfl, ?_⟩
  · unfold TaskSetImpl.taskFire
    rw [if_pos hany]
    cases hex : (match node.dtorException with
      | some e => node.get.addException e
      | none => node.get).exceptions with
    | nil => simp [hex]
    | cons e rest => simp [hex]
  · intro hc
    obtain ⟨p, hp, hp1⟩ := List.mem_map.mp hc
    have hmemf := List.mem_filter.mp hp
    simp only [decide_eq_true_eq] at hmemf
    exact hmemf.2 hp1
  · intro m hm
    unfold TaskSetImpl.destructorDeleteMe
    rw [if_neg hne]
    exact hm

theorem c8_witness :
    ∃ ts', TaskSetImpl.taskFire
        { tasks := [(7, VNode.attachThrowing (VNode.immediateBroken { msg := 3 }) { msg := 4 })],
          errorLog := [] } 7
        (VNode.attachThrowing (VNode.immediateBroken { msg := 3 }) { msg := 4 })
      = some (ts', 7)
    ∧ ts'.tasks = List.filter (fun p => p.1 ≠ 7)
        [(7, VNode.attachThrowing (VNode.immediateBroken { msg := 3 }) { msg := 4 })]
    ∧ 7 ∉ ts'.tasks.map Prod.fst
    ∧ ts'.errorLog = [] ++
        (match (match (VNode.attachThrowing (VNode.immediateBroken { msg := 3 })
            { msg := 4 }).dtorException with
          | some e => (VNode.attachThrowing (VNode.immediateBroken { msg := 3 })
              { msg := 4 }).get.addException e
          | none => (VNode.attachThrowing (VNode.immediateBroken { msg := 3 })
              { msg := 4 }).get).exceptions with
         | e :: _ => [e]
         | [] => [])
    ∧ (∀ m ∈ [(7, VNode.attachThrowing (VNode.immediateBroken { msg := 3 }) { msg := 4 })],
        m ∈ TaskSetImpl.destructorDeleteMe
          { tasks := [(7, VNode.attachThrowing (VNode.immediateBroken { msg := 3 })
              { msg := 4 })], errorLog := [] }) :=
  c8_taskset_fire
    { tasks := [(7, VNode.attachThrowing (VNode.immediateBroken { msg := 3 }) { msg := 4 })],
      errorLog := [] } 7
    (VNode.attachThrowing (VNode.immediateBroken { msg := 3 }) { msg := 4 })
    (by simp)

/-- C10: destroying an enqueued event `e` (queue `A ++ e :: B` with
accurate `prev` slots) unlinks it through its `prev` slot while repairing
every loop pointer that referenced it: if it was the head, head becomes
its successor; if `tail` or `depthFirstInsertPoint` pointed at its `next`
slot they are redirected to its `prev` slot; afterwards the remaining
queue spells `A ++ B` with accurate `prev` slots, and an event other than
`e` has `prev != nullptr` iff it is still enqueued. -/
theorem c10_destroy_unlinks {st : LoopState} {A B : List EventId} {e : EventId}
    (hfull : fullTo st Slot.head (A ++ e :: B))
    (hterm : st.readSlot (slotAfterFrom Slot.head (A ++ e :: B)) = none)
    (hnd : (A ++ e :: B).Nodup)
    (hunq : ∀ x, x ∉ A ++ e :: B → st.prevOf x = none) :
    (fullTo (destroyEvent e st) Slot.head (A ++ B)
      ∧ (destroyEvent e st).readSlot (slotAfterFrom Slot.head (A ++ B)) = none)
    ∧ st.prevOf e = some (slotAfterFrom Slot.head A)
    ∧ (st.headE = some e → (destroyEvent e st).headE = st.nextOf e)
    ∧ (st.tail = Slot.next e → (destroyEvent e st).tail = slotAfterFrom Slot.head A)
    ∧ (st.dfip = Slot.next e → (destroyEvent e st).dfip = slotAfterFrom Slot.head A)
    ∧ (∀ x, x ≠ e → ((destroyEvent e st).prevOf x ≠ none ↔ x ∈ A ++ B)) := by
  have hsplit := (fullTo_append st Slot.head A (e :: B)).mp hfull
  obtain ⟨hA, hEB⟩ := hsplit
  rw [fullTo_cons] at hEB
  obtain ⟨hre, hpe, hrB⟩ := hEB
  have hndm := List.nodup_middle.mp hnd
  have heAB : e ∉ A ++ B := (List.nodup_cons.mp hndm).1
  have hndAB : (A ++ B).Nodup := (List.nodup_cons.mp hndm).2
  obtain ⟨hndA, hndB, hdsAB⟩ := List.nodup_append.mp hndAB
  have heA : e ∉ A := fun hc => heAB (List.mem_append_left _ hc)
  have heB : e ∉ B := fun hc => heAB (List.mem_append_right _ hc)
  have hnB : st.nextOf e = B.head? := by
    cases B with
    | nil =>
      have hsl : slotAfterFrom Slot.head (A ++ e :: ([] : List EventId))
          = Slot.next e := slotAfterFrom_concat _ _ _
      have ht := hterm
      rw [hsl] at ht
      simpa using ht
    | cons f B' =>
      rw [fullTo_cons] at hrB
      simpa using hrB.1
  have hheadiff : st.headE = some e ↔ slotAfterFrom Slot.head A = Slot.head := by
    cases A with
    | nil =>
      constructor
      · intro _
        rfl
      · intro _
        simpa using hre
    | cons a A' =>
      constructor
      · intro hh
        exfalso
        rw [fullTo_cons] at hA
        have h1 : st.readSlot Slot.head = some a := hA.1
        rw [readSlot_head, hh] at h1
        apply heA
        rw [Option.some.inj h1]
        exact List.mem_cons_self a A'
      · intro hph
        exfalso
        rw [slotAfterFrom_cons] at hph
        rcases slotAfterFrom_shape A' (Slot.next a) with h' | ⟨x, _, h'⟩ <;>
          rw [h'] at hph <;> exact Slot.noConfusion hph
  have hrs := readSlot_destroyEvent st e (slotAfterFrom Slot.head A) hpe hheadiff
  have hpv := prevOf_destroyEvent st e (slotAfterFrom Slot.head A) hpe
  have htl := tail_destroyEvent st e (slotAfterFrom Slot.head A) hpe
  have hdf := dfip_destroyEvent st e (slotAfterFrom Slot.head A) hpe
  have hpA : slotAfterFrom Slot.head A ∉ readsOf Slot.head A :=
    slotAfter_not_reads A Slot.head hndA (fun x _ => by simp)
  have hp_notnextB : ∀ z ∈ B, slotAfterFrom Slot.head A ≠ Slot.next z := by
    intro z hz
    exact slotAfterFrom_ne_next Slot.head A z (by simp) (fun hc => hdsAB hc hz)
  refine ⟨⟨?_, ?_⟩, hpe, ?_, ?_, ?_, ?_⟩
  · -- the remaining queue spells A ++ B with accurate prev slots
    rw [fullTo_append]
    constructor
    · refine fullTo_congr st _ Slot.head A ?_ ?_ hA
      · intro s' hs'
        have h1 : ¬s' = slotAfterFrom Slot.head A := by
          intro hc
          rw [hc] at hs'
          exact hpA hs'
        rw [hrs s', if_neg h1]
      · intro x hx
        rw [hpv x, hnB]
        cases B with
        | nil => rfl
        | cons f B' =>
          have hxf : x ≠ f := fun hc => hdsAB hx (hc ▸ List.mem_cons_self f B')
          simp [hxf]
    · cases B with
      | nil => trivial
      | cons f B' =>
        rw [fullTo_cons] at hrB
        obtain ⟨hr1, hr2, hr3⟩ := hrB
        rw [fullTo_cons]
        refine ⟨?_, ?_, ?_⟩
        · rw [hrs, if_pos rfl, hnB]
          rfl
        · rw [hpv f, hnB]
          simp
        · refine fullTo_congr st _ (Slot.next f) B' ?_ ?_ hr3
          · intro s' hs'
            have hs1 : ¬s' = slotAfterFrom Slot.head A := by
              intro hc
              rcases mem_readsOf B' (Slot.next f) s' hs' with h' | ⟨x, hx, h'⟩
              · exact hp_notnextB f (List.mem_cons_self f B') (hc.symm.trans h')
              · exact hp_notnextB x (List.mem_cons_of_mem f hx) (hc.symm.trans h')
            rw [hrs s', if_neg hs1]
          · intro x hx
            rw [hpv x, hnB]
            have hxf : x ≠ f := fun hc => (List.nodup_cons.mp hndB).1 (hc ▸ hx)
            simp [hxf]
  · -- termination of the remaining chain
    cases B with
    | nil =>
      rw [List.append_nil, hrs, if_pos rfl, hnB]
      rfl
    | cons f B' =>
      have h1 : slotAfterFrom Slot.head (A ++ f :: B')
          = slotAfterFrom (Slot.next f) B' := by
        rw [slotAfterFrom_append]
        rfl
      have h2 : slotAfterFrom Slot.head (A ++ e :: f :: B')
          = slotAfterFrom (Slot.next f) B' := by
        rw [slotAfterFrom_append]
        rfl
      have hne : ¬slotAfterFrom (Slot.next f) B' = slotAfterFrom Slot.head A := by
        intro hc
        rcases slotAfterFrom_shape B' (Slot.next f) with h' | ⟨x, hx, h'⟩
        · exact hp_notnextB f (List.mem_cons_self f B') (hc.symm.trans h' |>.symm).symm
        · exact hp_notnextB x (List.mem_cons_of_mem f hx) (hc.symm.trans h' |>.symm).symm
      rw [h1, hrs, if_neg hne, ← h2]
      exact hterm
  · -- head repaired
    intro hh
    rw [headE_destroyEvent st e (slotAfterFrom Slot.head A) hpe]
    by_cases hph : Slot.head = slotAfterFrom Slot.head A
    · rw [if_pos hph]
    · rw [if_neg hph, if_pos hh]
  · -- tail redirected to the prev slot
    intro ht
    rw [htl, if_pos ht]
  · -- depth-first insert point redirected to the prev slot
    intro hd
    rw [hdf, if_pos hd]
  · -- enqueued iff prev non-null, for the surviving events
    intro x hxe
    rw [hpv x, hnB]
    cases B with
    | nil =>
      show ¬st.prevOf x = none ↔ x ∈ A ++ []
      constructor
      · intro hpx
        by_contra hc
        apply hpx
        refine hunq x ?_
        intro hm
        rcases List.mem_append.mp hm with h' | h'
        · exact hc (List.mem_append_left _ h')
        · rcases List.mem_cons.mp h' with h'' | h''
          · exact hxe h''
          · simp at h''
      · intro hx
        have hxA : x ∈ A := by simpa using hx
        exact fullTo_prev_isSome st Slot.head A hA x hxA
    | cons f B' =>
      rw [fullTo_cons] at hrB
      obtain ⟨hr1, hr2, hr3⟩ := hrB
      simp only [List.head?_cons]
      by_cases hxf : x = f
      · rw [if_pos hxf]
        constructor
        · intro _
          exact List.mem_append_right _ (hxf ▸ List.mem_cons_self f B')
        · intro _
          simp
      · rw [if_neg hxf]
        constructor
        · intro hpx
          by_contra hc
          apply hpx
          refine hunq x ?_
          intro hm
          rcases List.mem_append.mp hm with h' | h'
          · exact hc (List.mem_append_left _ h')
          · rcases List.mem_cons.mp h' with h'' | h''
            · exact hxe h''
            · exact hc (List.mem_append_right _ h'')
        · intro hx
          rcases List.mem_append.mp hx with h' | h'
          · exact fullTo_prev_isSome st Slot.head A hA x h'
          · rcases List.mem_cons.mp h' with h'' | h''
            · exact absurd h'' hxf
            · exact fullTo_prev_isSome st (Slot.next f) B' hr3 x h''

/-- A loop state whose queue holds the events `3` then `7` with accurate
`prev` slots. -/
def pairState : LoopState :=
  { nextOf := fun x => if x = 3 then some 7 else none
    prevOf := fun x => if x = 3 then some Slot.head
      else if x = 7 then some (Slot.next 3) else none
    headE := some 3
    tail := Slot.next 7
    dfip := Slot.head
    firing := fun _ => false }

theorem c10_witness :
    ((fullTo (destroyEvent 3 pairState) Slot.head (([] : List EventId) ++ [7])
      ∧ (destroyEvent 3 pairState).readSlot
          (slotAfterFrom Slot.head (([] : List EventId) ++ [7])) = none)
    ∧ pairState.prevOf 3 = some (slotAfterFrom Slot.head ([] : List EventId))
    ∧ (pairState.headE = some 3 →
        (destroyEvent 3 pairState).headE = pairState.nextOf 3)
    ∧ (pairState.tail = Slot.next 3 →
        (destroyEvent 3 pairState).tail = slotAfterFrom Slot.head ([] : List EventId))
    ∧ (pairState.dfip = Slot.next 3 →
        (destroyEvent 3 pairState).dfip = slotAfterFrom Slot.head ([] : List EventId))
    ∧ (∀ x, x ≠ 3 →
        ((destroyEvent 3 pairState).prevOf x ≠ none ↔ x ∈ ([] : List EventId) ++ [7]))) :=
  @c10_destroy_unlinks pairState [] [7] 3
    (by simp [pairState]) (by simp [pairState]) (by decide)
    (by
      intro x hx
      simp only [List.nil_append, List.mem_cons, List.not_mem_nil, or_false,
        not_or] at hx
      simp [pairState, hx.1, hx.2])

end KjAsync
